import Mathlib

/-!
Verification of the boolIR information-retrieval engine.

This file shallowly embeds the core data model and algorithms of the
boolIR C++ repository into Lean 4 and proves (or refutes) the frozen
claims about them.  Machine integers (`unsigned int` doc-ids, `size_t`
lengths and offsets) are modelled as `Nat`: the program only compares
and stores them, never performs wrapping arithmetic, so no overflow is
observable in the modelled code paths.  `std::vector<unsigned int>`
becomes `List Nat`, `std::string` becomes `String` (or `List Char`
when character-level processing is embedded), hash maps become
association lists, and fallible code returns `Except`/`Option`.

Sources embedded below:
  * src/src/retrieval/retrieval_set.cpp   (ResultSet set operations)
  * src/src/retrieval/retriever.cpp       (ParallelRetriever::execute_node, get_universe)
  * src/src/indexing/bsbi_indexer.cpp     (shard emission, merge passes, document store)
  * src/src/system_controller.cpp         (candidate cap before hydration/reranking)
  * src/src/retrieval/query_preprocessor.cpp (text normalisation)
  * src/src/retrieval/query_expander.cpp  (recursive-descent Boolean parser)
  * src/src/reranking/gpu_worker_pool.cpp and parallel_gpu_reranking.cpp
    (shutdown behaviour of the two rerank services)
-/

namespace BoolIR

/-! ## ResultSet set operations (src/src/retrieval/retrieval_set.cpp)

A `ResultSet` is a vector of doc-ids; we embed it directly as `List Nat`.
-/

/-- Two-pointer intersection loop of `ResultSet::intersect_sets`
(retrieval_set.cpp lines 38-55): advance the cursor of the smaller head,
emit on equality. -/
def interLoop : List Nat → List Nat → List Nat
  | [], _ => []
  | _ :: _, [] => []
  | a :: as, b :: bs =>
    if a < b then interLoop as (b :: bs)
    else if b < a then interLoop (a :: as) bs
    else a :: interLoop as bs

/-- Midpoint-halving search mirroring `std::binary_search` on a
random-access range, with an explicit fuel argument (the list length
bounds the recursion depth) so that the definition is structurally
recursive and kernel-evaluable. -/
def binSearchGo : Nat → List Nat → Nat → Bool
  | 0, _, _ => false
  | _ + 1, [], _ => false
  | fuel + 1, x :: xs, v =>
    let l := x :: xs
    let m := l.length / 2
    let w := l.getD m 0
    if v < w then binSearchGo fuel (l.take m) v
    else if w < v then binSearchGo fuel (l.drop (m + 1)) v
    else true

/-- Entry point for the `std::binary_search` model. -/
def binSearch (l : List Nat) (v : Nat) : Bool :=
  binSearchGo l.length l v

/-- Binary-search path of `ResultSet::intersect_sets`
(retrieval_set.cpp lines 21-35): iterate over the smaller list and keep
the values found in the larger list by binary search. -/
def gallopIntersect (a b : List Nat) : List Nat :=
  let smaller := if a.length < b.length then a else b
  let larger := if a.length < b.length then b else a
  smaller.filter (fun v => binSearch larger v)

/-- Full `ResultSet::intersect_sets` (retrieval_set.cpp lines 3-56):
empty early exit, then the binary-search strategy when one input is
more than 10 times larger than the other, otherwise the two-pointer
merge. -/
def intersect_sets (a b : List Nat) : List Nat :=
  if a = [] ∨ b = [] then []
  else if a.length > b.length * 10 ∨ b.length > a.length * 10 then
    gallopIntersect a b
  else interLoop a b

/-- Two-pointer union loop of `ResultSet::union_sets`
(retrieval_set.cpp lines 73-92): emit the smaller head, emit once on
equality, flush the surviving tail. -/
def unionLoop : List Nat → List Nat → List Nat
  | [], l => l
  | l, [] => l
  | a :: as, b :: bs =>
    if a < b then a :: unionLoop as (b :: bs)
    else if b < a then b :: unionLoop (a :: as) bs
    else a :: unionLoop as bs

/-- Full `ResultSet::union_sets` (retrieval_set.cpp lines 58-94) with
its empty early exits. -/
def union_sets (a b : List Nat) : List Nat :=
  if a = [] then b
  else if b = [] then a
  else unionLoop a b

/-- Two-pointer difference loop of `ResultSet::differ_sets`
(retrieval_set.cpp lines 111-131): emit left elements that precede the
right cursor, skip on equality. -/
def differLoop : List Nat → List Nat → List Nat
  | [], _ => []
  | a :: as, [] => a :: differLoop as []
  | a :: as, b :: bs =>
    if a < b then a :: differLoop as (b :: bs)
    else if b < a then differLoop (a :: as) bs
    else differLoop as bs

/-- Full `ResultSet::differ_sets` (retrieval_set.cpp lines 96-133) with
its empty early exits. -/
def differ_sets (a b : List Nat) : List Nat :=
  if a = [] then []
  else if b = [] then a
  else differLoop a b

/-! ## Retriever query evaluation (src/src/retrieval/retriever.cpp) -/

/-- The `QueryOperator` enum of include/retrieval/query.h. -/
inductive QueryOperator
  | TERM
  | AND
  | OR
  | NOT
  deriving DecidableEq, Repr

/-- The `QueryNode` tree: an operator, a term (meaningful for `TERM`
nodes) and a list of children. -/
inductive QueryNode where
  | mk : QueryOperator → String → List QueryNode → QueryNode
  deriving Repr

/-- Operator of a query node. -/
def QueryNode.op : QueryNode → QueryOperator
  | .mk o _ _ => o

/-- Term of a query node. -/
def QueryNode.term : QueryNode → String
  | .mk _ t _ => t

/-- Children of a query node. -/
def QueryNode.children : QueryNode → List QueryNode
  | .mk _ _ cs => cs

/-- Shorthand for a TERM leaf. -/
def qTerm (t : String) : QueryNode := .mk .TERM t []

/-- The `postings_cache` of `ParallelRetriever::execute_query`: a map
from term to fetched posting list, embedded as an association list. -/
abbrev PostingsCache := List (String × List Nat)

/-- The `get_universe` helper (retriever.cpp lines 189-206): union of
all cached posting lists, starting from the first entry. -/
def get_universe (cache : PostingsCache) : List Nat :=
  match cache with
  | [] => []
  | (_, v) :: rest => rest.foldl (fun u p => union_sets u p.2) v

mutual

/-- The recursive Boolean evaluator `ParallelRetriever::execute_node`
(retriever.cpp lines 106-187).  `context` is the `context_set`
parameter.  TERM looks up the cache; an operator node with no children
returns empty; NOT with one child takes the difference from the context
when it is non-empty, else from the synthesized universe; AND folds its
children left-to-right via `execAndLoop`; OR unions the children's
results via `execOrLoop`. -/
def execute_node (cache : PostingsCache) : QueryNode → List Nat → List Nat
  | .mk op term children, context =>
    if op = .TERM then ((List.lookup term cache).getD [])
    else if children.isEmpty then []
    else if op = .NOT then
      match children with
      | [c] =>
        let child_result := execute_node cache c context
        if context = [] then differ_sets (get_universe cache) child_result
        else differ_sets context child_result
      | _ => []
    else if op = .AND then execAndLoop cache children []
    else if op = .OR then
      match children with
      | [] => []
      | c :: cs => execOrLoop cache cs (execute_node cache c [])
    else []

/-- The AND loop of `execute_node` (retriever.cpp lines 141-166): the
accumulator `result` starts empty (so the first child, and any child
reached while the running result is empty, is evaluated against an
empty context and replaces the result); a NOT child is evaluated
against the running result; any other child is intersected. -/
def execAndLoop (cache : PostingsCache) : List QueryNode → List Nat → List Nat
  | [], result => result
  | c :: cs, result =>
    if result = [] then execAndLoop cache cs (execute_node cache c [])
    else if c.op = .NOT then execAndLoop cache cs (execute_node cache c result)
    else execAndLoop cache cs (intersect_sets result (execute_node cache c []))

/-- The OR fold of `execute_node` (retriever.cpp lines 168-184). -/
def execOrLoop (cache : PostingsCache) : List QueryNode → List Nat → List Nat
  | [], result => result
  | c :: cs, result => execOrLoop cache cs (union_sets result (execute_node cache c []))

end

/-! ## BSBI indexer (src/src/indexing/bsbi_indexer.cpp) -/

/-- The `TermDocPair` record of include/indexing/bsbi_indexer.h. -/
structure TermDocPair where
  term : String
  doc_id : Nat
  deriving DecidableEq, Repr

/-- Lexicographic byte comparison of `std::string::operator<`, embedded
over the character lists. -/
def strLtb : List Char → List Char → Bool
  | [], [] => false
  | [], _ :: _ => true
  | _ :: _, [] => false
  | a :: as, b :: bs =>
    if a < b then true
    else if b < a then false
    else strLtb as bs

/-- The `TermDocPair::operator<` (bsbi_indexer.h lines 15-20):
lexicographic on term, then numeric on doc id. -/
def tdpLt (p q : TermDocPair) : Bool :=
  if p.term ≠ q.term then strLtb p.term.data q.term.data
  else decide (p.doc_id < q.doc_id)

/-- Sortedness of a merged run as `std::sort`/merge guarantee it:
no later element is `tdpLt`-smaller than an earlier adjacent one. -/
def tdpLe (p q : TermDocPair) : Prop := tdpLt q p = false

instance (p q : TermDocPair) : Decidable (tdpLe p q) :=
  inferInstanceAs (Decidable (tdpLt q p = false))

/-- The grouping loop of `BSBIIndexer::create_sharded_index_files`
(bsbi_indexer.cpp lines 110-138): stream the merged run, carry
`current_term` and the `postings` buffer, flush an entry on term
change, and flush the trailing buffer at the end.  No de-duplication
is performed on the buffered doc-ids. -/
def groupFlush : List TermDocPair → String → List Nat → List (String × List Nat)
  | [], current_term, postings =>
    if current_term = "" then [] else [(current_term, postings)]
  | p :: rest, current_term, postings =>
    if p.term ≠ current_term ∧ current_term ≠ "" then
      (current_term, postings) :: groupFlush rest p.term [p.doc_id]
    else
      groupFlush rest p.term (postings ++ [p.doc_id])

/-- Dictionary entries (term, posting list) emitted from a merged run
by Phase 3 (bsbi_indexer.cpp lines 91-141), before shard routing. -/
def merged_run_entries (run : List TermDocPair) : List (String × List Nat) :=
  groupFlush run "" []

/-- Entries routed to shard `k` by `hash(term) % num_shards`
(bsbi_indexer.cpp lines 117 and 132); the hash function is a
parameter. -/
def shard_dict (hashFn : String → Nat) (num_shards k : Nat)
    (run : List TermDocPair) : List (String × List Nat) :=
  (merged_run_entries run).filter (fun e => hashFn e.1 % num_shards = k)

/-- The streaming two-pointer merge of one pair of run files in
`BSBIIndexer::merge_runs` (bsbi_indexer.cpp lines 290-325): take the
`tdpLt`-smaller head (ties go to the second file), then flush
whichever file survives. -/
def mergeTDP : List TermDocPair → List TermDocPair → List TermDocPair
  | [], l => l
  | l, [] => l
  | p :: ps, q :: qs =>
    if tdpLt p q then p :: mergeTDP ps (q :: qs)
    else q :: mergeTDP (p :: ps) qs

/-- One merge pass of `BSBIIndexer::merge_runs` (bsbi_indexer.cpp
lines 261-338): two-way merge adjacent pairs of run files; an unpaired
odd file carries forward untouched at the end of the next pass list. -/
def mergePass : List (List TermDocPair) → List (List TermDocPair)
  | f1 :: f2 :: rest => mergeTDP f1 f2 :: mergePass rest
  | files => files

/-- The outer `while (run_files.size() > 1)` loop of
`BSBIIndexer::merge_runs`, returning the number of passes and the
final run-file list.  The fuel argument (instantiated with the initial
file count, which bounds the number of passes) makes the definition
structurally recursive. -/
def mergeLoopGo : Nat → List (List TermDocPair) → Nat × List (List TermDocPair)
  | 0, files => (0, files)
  | fuel + 1, files =>
    if 1 < files.length then
      let r := mergeLoopGo fuel (mergePass files)
      (r.1 + 1, r.2)
    else (0, files)

/-- Embedding of `BSBIIndexer::merge_runs` pass structure (bsbi_indexer.cpp lines
255-344). -/
def merge_runs (files : List (List TermDocPair)) : Nat × List (List TermDocPair) :=
  mergeLoopGo files.length files

/-! ## Candidate cap before hydration and reranking
(src/src/system_controller.cpp lines 131-147) -/

/-- The hydration loop of `HighPerformanceIRSystem::search`: walk the
candidate ids, stop once `found` reaches `max_candidates`, and keep
only ids present in the document-id map. -/
def selectCandidatesLoop (max_candidates found : Nat) (inMap : Nat → Bool) :
    List Nat → List Nat
  | [] => []
  | id :: rest =>
    if found ≥ max_candidates then []
    else if inMap id then id :: selectCandidatesLoop max_candidates (found + 1) inMap rest
    else selectCandidatesLoop max_candidates found inMap rest

/-- Candidate selection of `HighPerformanceIRSystem::search`
(system_controller.cpp line 133): `max_candidates` is
`min(size_t(100), candidate_ids.size())`. -/
def selectRerankCandidates (inMap : Nat → Bool) (candidate_ids : List Nat) : List Nat :=
  selectCandidatesLoop (min 100 candidate_ids.length) 0 inMap candidate_ids

/-- The `MAX_RERANK_CANDIDATES` constant of include/config.h line 32
(not referenced by `HighPerformanceIRSystem::search`). -/
def MAX_RERANK_CANDIDATES : Nat := 1024

/-! ## Document store (src/src/indexing/bsbi_indexer.cpp lines 347-394) -/

/-- The `Document` record as the document store consumes it: an id and
the (normalized) content whose length drives the store offsets. -/
structure Document where
  id : Nat
  content : String
  deriving DecidableEq, Repr

/-- Records written to `doc_offsets.dat`: for each document in
collection order, `(id, current_offset)` where `current_offset` is the
byte position in `documents.dat` before that document's record
(id: 4 bytes, length: 4 bytes, then the content bytes). -/
def doc_offsets_records : Nat → List Document → List (Nat × Nat)
  | _, [] => []
  | current_offset, d :: rest =>
    (d.id, current_offset) :: doc_offsets_records (current_offset + 8 + d.content.length) rest

/-- Records written to `documents.dat`: `(id, content_len, content)`
for each document in collection order. -/
def documents_records (docs : List Document) : List (Nat × Nat × String) :=
  docs.map (fun d => (d.id, d.content.length, d.content))

/-- Records written to `doc_names.dat`: a record is written only when
the document's id is found in the `id_to_doc_name_` map
(bsbi_indexer.cpp lines 380-388). -/
def doc_names_records (id_to_doc_name : List (Nat × String)) (docs : List Document) :
    List (Nat × String) :=
  docs.filterMap (fun d => (List.lookup d.id id_to_doc_name).map (fun nm => (d.id, nm)))

/-! ## Text normalisation (src/src/retrieval/query_preprocessor.cpp)

Strings are processed byte-wise by the C++ code under the "C" locale;
we embed them as `List Char` where each `Char` plays the role of one
byte and the character classes are the exact "C"-locale ASCII sets. -/

/-- The `std::tolower` of `QueryPreprocessor::to_lowercase` in the "C"
locale: fold `A`-`Z` to `a`-`z`, leave everything else alone. -/
def toLowerChar (c : Char) : Char :=
  if 'A' ≤ c ∧ c ≤ 'Z' then Char.ofNat (c.toNat + 32) else c

/-- Embedding of `QueryPreprocessor::to_lowercase` (query_preprocessor.cpp lines
56-61). -/
def to_lowercase (s : List Char) : List Char :=
  s.map toLowerChar

/-- The `std::isspace` class in the "C" locale. -/
def isSpaceChar (c : Char) : Bool :=
  c = ' ' || c = '\t' || c = '\n' || c = '\x0b' || c = '\x0c' || c = '\r'

/-- The `std::isalnum` class in the "C" locale. -/
def isAlnumChar (c : Char) : Bool :=
  ('a' ≤ c && c ≤ 'z') || ('A' ≤ c && c ≤ 'Z') || ('0' ≤ c && c ≤ '9')

/-- Embedding of `QueryPreprocessor::remove_punctuation` (query_preprocessor.cpp
lines 63-76): keep alphanumerics, whitespace and parentheses, replace
everything else with a space. -/
def remove_punctuation (s : List Char) : List Char :=
  s.map (fun c => if isAlnumChar c || isSpaceChar c || c = '(' || c = ')' then c else ' ')

/-- Embedding of `QueryPreprocessor::tokenize` (query_preprocessor.cpp lines 78-89):
`ss >> token` yields the maximal runs of non-whitespace characters. -/
def tokenize : List Char → List (List Char)
  | [] => []
  | c :: cs =>
    if isSpaceChar c then tokenize cs
    else (c :: cs.takeWhile (fun x => !isSpaceChar x)) ::
      tokenize (cs.dropWhile (fun x => !isSpaceChar x))
  termination_by l => l.length
  decreasing_by
  · simp
  · simp only [List.length_cons]
    exact Nat.lt_succ_of_le (List.Sublist.length_le (List.dropWhile_sublist _))

/-- The default stop-word set of
`QueryPreprocessor::initialize_default_stop_words`
(query_preprocessor.cpp lines 15-21); `and`, `or`, `not` are absent. -/
def stop_words : List String :=
  ["a", "an", "are", "as", "at", "be", "by", "for", "from",
   "has", "he", "in", "is", "it", "its", "of", "on", "that", "the",
   "to", "was", "will", "with", "what", "when", "where", "who", "how",
   "which", "this", "these", "those", "can", "could", "do", "does",
   "have", "had", "been", "being", "would", "should", "may", "might"]

/-- The `first`-flag join of `QueryPreprocessor::remove_stop_words`:
a single space is written before every token except the first. -/
def joinTokens : List (List Char) → List Char
  | [] => []
  | [t] => t
  | t :: t2 :: ts => t ++ ' ' :: joinTokens (t2 :: ts)

/-- Embedding of `QueryPreprocessor::remove_stop_words` (query_preprocessor.cpp
lines 91-103): drop stop-word tokens and join the survivors with
single spaces. -/
def remove_stop_words (tokens : List (List Char)) : List Char :=
  joinTokens (tokens.filter (fun t => !(stop_words.contains (String.mk t))))

/-- Step 5 of `QueryPreprocessor::preprocess`: erase leading and
trailing characters from the set `" \t\n\r\f\v"` (exactly the
"C"-locale `isspace` set). -/
def trimEnds (s : List Char) : List Char :=
  ((s.dropWhile isSpaceChar).reverse.dropWhile isSpaceChar).reverse

/-- Embedding of `QueryPreprocessor::preprocess` (query_preprocessor.cpp lines
105-123): lowercase, punctuation to spaces, tokenize, drop stop words
and join, trim. -/
def preprocess (query : List Char) : List Char :=
  trimEnds (remove_stop_words (tokenize (remove_punctuation (to_lowercase query))))

/-! ## Boolean parser (src/src/retrieval/query_expander.cpp) -/

/-- The synonym map of `QueryExpander`, loaded from the synonym file. -/
abbrev SynonymMap := List (String × List String)

/-- Ordered insertion into a `std::set<std::string>` snapshot
(ascending by `operator<`, ignoring duplicates). -/
def setInsertStr (x : String) : List String → List String
  | [] => [x]
  | y :: ys =>
    if strLtb x.data y.data then x :: y :: ys
    else if strLtb y.data x.data then y :: setInsertStr x ys
    else y :: ys

/-- Embedding of `QueryExpander::create_synonym_node` (query_expander.cpp lines
90-119): collect the term and its synonyms into a set, then emit a
single TERM node for a singleton or an OR node over the sorted
variations. -/
def create_synonym_node (syn : SynonymMap) (term : String) : QueryNode :=
  let variations :=
    ((List.lookup term syn).getD []).foldl (fun acc s => setInsertStr s acc)
      (setInsertStr term [])
  match variations with
  | [v] => qTerm v
  | vs => .mk .OR "" (vs.map qTerm)

/-- The two `std::runtime_error` throws of the parser
(query_expander.cpp lines 175 and 199). -/
inductive ParseError
  | unexpectedEnd
  | mismatchedParens
  deriving DecidableEq, Repr

mutual

/-- Embedding of `QueryExpander::parse_factor` (query_expander.cpp lines 161-182):
consume one token (throwing on end of input), then a NOT factor, a
parenthesised expression (requiring a closing `)`), or a synonym node
for a plain word.  The result carries the unconsumed suffix together
with the bound needed for termination. -/
def parse_factor (syn : SynonymMap) :
    (ts : List String) → Except ParseError {p : QueryNode × List String // p.2.length < ts.length}
  | [] => .error .unexpectedEnd
  | tok :: rest =>
    if tok = "not" then
      match parse_factor syn rest with
      | .error e => .error e
      | .ok ⟨(child, r), h⟩ => .ok ⟨(.mk .NOT "" [child], r), by simp at h ⊢; omega⟩
    else if tok = "(" then
      match parse_expression syn rest with
      | .error e => .error e
      | .ok ⟨(node, r), h⟩ =>
        match r, h with
        | [], _ => .error .mismatchedParens
        | c :: r', h =>
          if c = ")" then .ok ⟨(node, r'), by simp at h ⊢; omega⟩
          else .error .mismatchedParens
    else .ok ⟨(create_synonym_node syn tok, rest), by simp⟩
  termination_by ts => ts.length * 5 + 0
  decreasing_by
  all_goals simp_wf
  all_goals try simp_all
  all_goals omega

/-- Embedding of `QueryExpander::parse_term` (query_expander.cpp lines 139-159):
one factor followed by the implicit/explicit AND loop. -/
def parse_term (syn : SynonymMap) (ts : List String) :
    Except ParseError {p : QueryNode × List String // p.2.length < ts.length} :=
  match parse_factor syn ts with
  | .error e => .error e
  | .ok ⟨(left, r), h⟩ =>
    match parse_term_loop syn left r with
    | .error e => .error e
    | .ok ⟨p, h'⟩ => .ok ⟨p, Nat.lt_of_le_of_lt h' (by simpa using h)⟩
  termination_by ts.length * 5 + 2
  decreasing_by
  all_goals simp_wf
  all_goals try simp at h
  all_goals omega

/-- The `while` loop of `QueryExpander::parse_term`: as long as the
next token is not `or`, `)` or the end, optionally consume an `and`,
parse the next factor and fold it into a binary AND node. -/
def parse_term_loop (syn : SynonymMap) (left : QueryNode) :
    (ts : List String) → Except ParseError {p : QueryNode × List String // p.2.length ≤ ts.length}
  | [] => .ok ⟨(left, []), by simp⟩
  | tok :: rest =>
    if tok = "or" ∨ tok = ")" then .ok ⟨(left, tok :: rest), by simp⟩
    else if tok = "and" then
      match parse_factor syn rest with
      | .error e => .error e
      | .ok ⟨(right, r), h⟩ =>
        match parse_term_loop syn (.mk .AND "" [left, right]) r with
        | .error e => .error e
        | .ok ⟨(res, r'), h'⟩ => .ok ⟨(res, r'), by simp at h h' ⊢; omega⟩
    else
      match parse_factor syn (tok :: rest) with
      | .error e => .error e
      | .ok ⟨(right, r), h⟩ =>
        match parse_term_loop syn (.mk .AND "" [left, right]) r with
        | .error e => .error e
        | .ok ⟨(res, r'), h'⟩ => .ok ⟨(res, r'), by simp at h h' ⊢; omega⟩
  termination_by ts => ts.length * 5 + 1
  decreasing_by
  all_goals simp_wf
  all_goals try simp_all
  all_goals omega

/-- Embedding of `QueryExpander::parse_expression` (query_expander.cpp lines
121-137): one term followed by the OR loop. -/
def parse_expression (syn : SynonymMap) (ts : List String) :
    Except ParseError {p : QueryNode × List String // p.2.length < ts.length} :=
  match parse_term syn ts with
  | .error e => .error e
  | .ok ⟨(left, r), h⟩ =>
    match parse_expression_loop syn left r with
    | .error e => .error e
    | .ok ⟨p, h'⟩ => .ok ⟨p, Nat.lt_of_le_of_lt h' (by simpa using h)⟩
  termination_by ts.length * 5 + 4
  decreasing_by
  all_goals simp_wf
  all_goals try simp at h
  all_goals omega

/-- The `while` loop of `QueryExpander::parse_expression`: as long as
the next token is `or`, consume it, parse the next term and fold it
into a binary OR node. -/
def parse_expression_loop (syn : SynonymMap) (left : QueryNode) :
    (ts : List String) → Except ParseError {p : QueryNode × List String // p.2.length ≤ ts.length}
  | [] => .ok ⟨(left, []), by simp⟩
  | tok :: rest =>
    if tok = "or" then
      match parse_term syn rest with
      | .error e => .error e
      | .ok ⟨(right, r), h⟩ =>
        match parse_expression_loop syn (.mk .OR "" [left, right]) r with
        | .error e => .error e
        | .ok ⟨(res, r'), h'⟩ => .ok ⟨(res, r'), by simp at h h' ⊢; omega⟩
    else .ok ⟨(left, tok :: rest), by simp⟩
  termination_by ts => ts.length * 5 + 3
  decreasing_by
  all_goals simp_wf
  all_goals try simp_all
  all_goals omega

end

/-- Embedding of `QueryExpander::expand_query` (query_expander.cpp lines 64-88) on
an already-tokenized input: an empty token list yields an empty AND
node; otherwise parse an expression and return its tree.  Leftover
unconsumed tokens only produce a warning on `stderr` — the tree is
returned anyway. -/
def expand_query_tokens (syn : SynonymMap) (tokens : List String) :
    Except ParseError QueryNode :=
  if tokens.isEmpty then .ok (.mk .AND "" [])
  else
    match parse_expression syn tokens with
    | .error e => .error e
    | .ok ⟨(tree, _), _⟩ => .ok tree

/-- Embedding of `QueryExpander::expand_query` including its whitespace
tokenisation of the input string (`ss >> token`). -/
def expand_query (syn : SynonymMap) (query_str : List Char) : Except ParseError QueryNode :=
  expand_query_tokens syn ((tokenize query_str).map (fun cs => String.mk cs))

/-- Properties of a parser call, relating the unconsumed rest to the
input token list: the rest is drawn from the input, and when the input
contains no `)` at all, an unconsumed `(` of the input must survive
into the rest (the parser cannot successfully consume a `(` group
without consuming a `)`). -/
def ParseRestProps (ts rest : List String) : Prop :=
  (∀ x ∈ rest, x ∈ ts) ∧ (")" ∉ ts → "(" ∈ ts → "(" ∈ rest)

/-- The AND loop only stops at the end of input or before `or` / `)`. -/
def StopsAtTermBoundary (rest : List String) : Prop :=
  rest = [] ∨ rest.head? = some "or" ∨ rest.head? = some ")"

/-- An expression parse only stops at the end of input or before `)`. -/
def StopsAtParen (rest : List String) : Prop :=
  rest = [] ∨ rest.head? = some ")"

/-! ## Rerank service shutdown
(src/src/reranking/gpu_worker_pool.cpp, parallel_gpu_reranking.cpp)

The concurrent services are modelled at their shutdown point: the
destructor has set the stop flag, no further submissions occur, and we
describe the deterministic remainder of the worker's execution plus
the destruction of any still-queued promises. -/

/-- State of a submitted job's future once the service has been
destroyed.  `fulfilled` and `failed` are `set_value`/`set_exception`
by the worker; `brokenPromise` is the error state a `std::future`
observes when its promise is destroyed unfulfilled; `cancelled` is the
explicit cancellation outcome the specification asks for. -/
inductive FutureOutcome (ρ : Type)
  | fulfilled (r : ρ)
  | failed
  | brokenPromise
  | cancelled
  deriving DecidableEq, Repr

/-- Embedding of `GpuWorkerPool::worker_loop` (gpu_worker_pool.cpp lines 42-63)
from the moment `stop_` is true with job queue `q`: the loop returns
only when the queue is empty, so it drains every queued job, fulfilling
each future with the rerank result or with the worker's exception. -/
def worker_loop_after_stop {J ρ : Type} (rerank : J → Except Unit ρ) :
    List J → List (FutureOutcome ρ)
  | [] => []
  | j :: rest =>
    (match rerank j with
     | .ok r => FutureOutcome.fulfilled r
     | .error _ => FutureOutcome.failed) :: worker_loop_after_stop rerank rest

/-- Embedding of `BatchedGpuReranker::process_batches` (parallel_gpu_reranking.cpp
lines 81-98) from the moment `stop_processing_` is true at the loop
head: `while (!stop_processing_)` exits immediately, so no queued
batch is processed; the destructor joins the worker and the queued
batches' promises are destroyed unfulfilled, leaving every queued
job's future in the broken-promise state. -/
def batched_shutdown_outcomes {J : Type} (ρ : Type) (queue : List (List J)) :
    List (FutureOutcome ρ) :=
  (List.flatten queue).map (fun _ => FutureOutcome.brokenPromise)

/-! ## Lemmas about the set operations -/

theorem interLoop_eq_filter (a b : List Nat) (ha : a.Pairwise (· < ·))
    (hb : b.Pairwise (· < ·)) :
    interLoop a b = a.filter (fun x => decide (x ∈ b)) := by
  induction a, b using interLoop.induct with
  | case1 b => simp [interLoop]
  | case2 a as => simp [interLoop]
  | case3 x as y bs hlt ih =>
    rw [interLoop, if_pos hlt, ih ha.tail hb]
    have hx : ¬(x = y ∨ x ∈ bs) := by
      rintro (rfl | h)
      · omega
      · have := (List.pairwise_cons.1 hb).1 x h; omega
    simp [List.filter_cons, List.mem_cons, hx]
  | case4 x as y bs hnlt hlt ih =>
    rw [interLoop, if_neg hnlt, if_pos hlt, ih ha hb.tail]
    apply List.filter_congr
    intro z hz
    have hzy : z ≠ y := by
      rcases List.mem_cons.1 hz with rfl | h
      · omega
      · have := (List.pairwise_cons.1 ha).1 z h; omega
    simp [List.mem_cons, hzy]
  | case5 x as y bs h1 h2 ih =>
    have hxy : x = y := by omega
    subst hxy
    rw [interLoop, if_neg h1, if_neg h2, ih ha.tail hb.tail]
    have hx : (x = x ∨ x ∈ bs) := Or.inl rfl
    simp only [List.filter_cons, List.mem_cons]
    rw [if_pos (by simpa using hx)]
    congr 1
    apply List.filter_congr
    intro z hz
    have hzx : z ≠ x := by
      have := (List.pairwise_cons.1 ha).1 z hz; omega
    simp [List.mem_cons, hzx]

theorem differLoop_eq_filter (a b : List Nat) (ha : a.Pairwise (· < ·))
    (hb : b.Pairwise (· < ·)) :
    differLoop a b = a.filter (fun x => !decide (x ∈ b)) := by
  induction a, b using differLoop.induct with
  | case1 b => simp [differLoop]
  | case2 a as ih =>
    rw [differLoop, ih ha.tail (by simp)]
    simp
  | case3 x as y bs hlt ih =>
    rw [differLoop, if_pos hlt, ih ha.tail hb]
    have hx : ¬(x = y ∨ x ∈ bs) := by
      rintro (rfl | h)
      · omega
      · have := (List.pairwise_cons.1 hb).1 x h; omega
    have hx1 : x ≠ y := fun h => hx (Or.inl h)
    have hx2 : x ∉ bs := fun h => hx (Or.inr h)
    simp [List.filter_cons, List.mem_cons, hx1, hx2]
  | case4 x as y bs hnlt hlt ih =>
    rw [differLoop, if_neg hnlt, if_pos hlt, ih ha hb.tail]
    apply List.filter_congr
    intro z hz
    have hzy : z ≠ y := by
      rcases List.mem_cons.1 hz with rfl | h
      · omega
      · have := (List.pairwise_cons.1 ha).1 z h; omega
    simp [List.mem_cons, hzy]
  | case5 x as y bs h1 h2 ih =>
    have hxy : x = y := by omega
    subst hxy
    rw [differLoop, if_neg h1, if_neg h2, ih ha.tail hb.tail]
    have hx : (x = x ∨ x ∈ bs) := Or.inl rfl
    simp only [List.filter_cons, List.mem_cons]
    rw [if_neg (by simpa using hx)]
    apply List.filter_congr
    intro z hz
    have hzx : z ≠ x := by
      have := (List.pairwise_cons.1 ha).1 z hz; omega
    simp [List.mem_cons, hzx]

theorem differLoop_self (l : List Nat) : differLoop l l = [] := by
  induction l with
  | nil => simp [differLoop]
  | cons x xs ih => rw [differLoop, if_neg (by omega), if_neg (by omega)]; exact ih

theorem interLoop_self (l : List Nat) : interLoop l l = l := by
  induction l with
  | nil => simp [interLoop]
  | cons x xs ih =>
    rw [interLoop, if_neg (by omega), if_neg (by omega)]
    exact congrArg (x :: ·) ih

theorem unionLoop_nil_left (l : List Nat) : unionLoop [] l = l := by
  simp [unionLoop]

theorem unionLoop_nil_right (l : List Nat) : unionLoop l [] = l := by
  cases l <;> simp [unionLoop]

theorem union_sets_eq_unionLoop (a b : List Nat) : union_sets a b = unionLoop a b := by
  rcases a with _ | ⟨x, as⟩
  · simp [union_sets, unionLoop]
  · rcases b with _ | ⟨y, bs⟩
    · simp [union_sets, unionLoop]
    · simp [union_sets]

theorem mem_unionLoop (a b : List Nat) (z : Nat) :
    z ∈ unionLoop a b ↔ z ∈ a ∨ z ∈ b := by
  induction a, b using unionLoop.induct with
  | case1 b => simp [unionLoop]
  | case2 l hne => rw [unionLoop_nil_right]; cases l <;> simp
  | case3 x as y bs hlt ih => rw [unionLoop, if_pos hlt]; simp [ih]; tauto
  | case4 x as y bs h1 h2 ih => rw [unionLoop, if_neg h1, if_pos h2]; simp [ih]; tauto
  | case5 x as y bs h1 h2 ih =>
    have hxy : x = y := by omega
    subst hxy
    rw [unionLoop, if_neg h1, if_neg h2]
    simp [ih]; tauto

theorem pairwise_unionLoop (a b : List Nat) (ha : a.Pairwise (· < ·))
    (hb : b.Pairwise (· < ·)) : (unionLoop a b).Pairwise (· < ·) := by
  induction a, b using unionLoop.induct with
  | case1 b => simpa [unionLoop] using hb
  | case2 l hne => rw [unionLoop_nil_right]; exact ha
  | case3 x as y bs hlt ih =>
    rw [unionLoop, if_pos hlt]
    refine List.pairwise_cons.2 ⟨?_, ih ha.tail hb⟩
    intro z hz
    rcases (mem_unionLoop _ _ _).1 hz with h | h
    · exact (List.pairwise_cons.1 ha).1 z h
    · rcases List.mem_cons.1 h with rfl | h
      · exact hlt
      · have := (List.pairwise_cons.1 hb).1 z h; omega
  | case4 x as y bs h1 h2 ih =>
    rw [unionLoop, if_neg h1, if_pos h2]
    refine List.pairwise_cons.2 ⟨?_, ih ha hb.tail⟩
    intro z hz
    rcases (mem_unionLoop _ _ _).1 hz with h | h
    · rcases List.mem_cons.1 h with rfl | h
      · exact h2
      · have := (List.pairwise_cons.1 ha).1 z h; omega
    · exact (List.pairwise_cons.1 hb).1 z h
  | case5 x as y bs h1 h2 ih =>
    have hxy : x = y := by omega
    subst hxy
    rw [unionLoop, if_neg h1, if_neg h2]
    refine List.pairwise_cons.2 ⟨?_, ih ha.tail hb.tail⟩
    intro z hz
    rcases (mem_unionLoop _ _ _).1 hz with h | h
    · exact (List.pairwise_cons.1 ha).1 z h
    · exact (List.pairwise_cons.1 hb).1 z h

theorem unionLoop_filter_partition (l : List Nat) (hl : l.Pairwise (· < ·))
    (p : Nat → Bool) :
    unionLoop (l.filter p) (l.filter (fun x => !p x)) = l := by
  induction l with
  | nil => simp [unionLoop]
  | cons x xs ih =>
    have hlt : ∀ z ∈ xs, x < z := (List.pairwise_cons.1 hl).1
    by_cases hp : p x
    · rw [List.filter_cons_of_pos (by simpa using hp),
        List.filter_cons_of_neg (by simpa using hp)]
      rcases hfn : xs.filter (fun x => !p x) with _ | ⟨y, ys⟩
      · have hall : xs.filter p = xs := by
          rw [List.filter_eq_self]
          intro z hz
          by_contra hzp
          have : z ∈ xs.filter (fun x => !p x) := by
            rw [List.mem_filter]; simp_all
          simp [hfn] at this
        rw [unionLoop_nil_right, hall]
      · have hy : y ∈ xs := by
          have : y ∈ xs.filter (fun x => !p x) := by rw [hfn]; simp
          exact (List.mem_filter.1 this).1
        rw [unionLoop, if_pos (hlt y hy)]
        rw [← hfn, ih hl.tail]
    · rw [List.filter_cons_of_neg (by simpa using hp),
        List.filter_cons_of_pos (by simpa using hp)]
      rcases hfp : xs.filter p with _ | ⟨y, ys⟩
      · have hall : xs.filter (fun x => !p x) = xs := by
          rw [List.filter_eq_self]
          intro z hz
          by_contra hzp
          have : z ∈ xs.filter p := by
            rw [List.mem_filter]; simp_all
          simp [hfp] at this
        rw [unionLoop_nil_left, hall]
      · have hy : y ∈ xs := by
          have : y ∈ xs.filter p := by rw [hfp]; simp
          exact (List.mem_filter.1 this).1
        rw [unionLoop, if_neg (by have := hlt y hy; omega), if_pos (hlt y hy)]
        rw [← hfp, ih hl.tail]

theorem binSearchGo_eq_mem (fuel : Nat) (l : List Nat) (v : Nat)
    (hfuel : l.length ≤ fuel) (hl : l.Pairwise (· < ·)) :
    (binSearchGo fuel l v = true ↔ v ∈ l) := by
  induction fuel generalizing l with
  | zero =>
    have : l = [] := List.eq_nil_of_length_eq_zero (Nat.le_zero.1 hfuel)
    subst this
    simp [binSearchGo]
  | succ fuel ih =>
    rcases l with _ | ⟨x, xs⟩
    · simp [binSearchGo]
    · have hm : (x :: xs).length / 2 < (x :: xs).length := by simp; omega
      have hsplit : x :: xs =
          (x :: xs).take ((x :: xs).length / 2) ++
            (x :: xs)[(x :: xs).length / 2] :: (x :: xs).drop ((x :: xs).length / 2 + 1) := by
        conv_lhs => rw [← List.take_append_drop ((x :: xs).length / 2) (x :: xs)]
        rw [List.drop_eq_getElem_cons hm]
      have hPW := hl
      rw [hsplit] at hPW
      have hparts := List.pairwise_append.1 hPW
      have hwlt : ∀ z ∈ (x :: xs).drop ((x :: xs).length / 2 + 1),
          (x :: xs)[(x :: xs).length / 2] < z :=
        (List.pairwise_cons.1 hparts.2.1).1
      have htw : ∀ z ∈ (x :: xs).take ((x :: xs).length / 2),
          z < (x :: xs)[(x :: xs).length / 2] := by
        intro z hz
        exact hparts.2.2 z hz _ (List.mem_cons_self _ _)
      rw [binSearchGo]
      simp only [List.getD_eq_getElem _ _ hm]
      rcases Nat.lt_trichotomy v ((x :: xs)[(x :: xs).length / 2]) with hv | hv | hv
      · rw [if_pos hv]
        have hfuel' : ((x :: xs).take ((x :: xs).length / 2)).length ≤ fuel := by
          simp only [List.length_take]
          simp at hfuel ⊢
          omega
        rw [ih _ hfuel' (hl.sublist (List.take_sublist _ _))]
        constructor
        · exact fun h => (List.take_sublist _ _).subset h
        · intro h
          rw [hsplit] at h
          rcases List.mem_append.1 h with h | h
          · exact h
          · rcases List.mem_cons.1 h with rfl | h
            · omega
            · have := hwlt v h; omega
      · rw [if_neg (by omega), if_neg (by omega)]
        simp only [true_iff]
        rw [hv]
        exact List.getElem_mem hm
      · rw [if_neg (by omega), if_pos hv]
        have hfuel' : ((x :: xs).drop ((x :: xs).length / 2 + 1)).length ≤ fuel := by
          simp only [List.length_drop]
          simp at hfuel ⊢
          omega
        rw [ih _ hfuel' (hl.sublist (List.drop_sublist _ _))]
        constructor
        · exact fun h => (List.drop_sublist _ _).subset h
        · intro h
          rw [hsplit] at h
          rcases List.mem_append.1 h with h | h
          · have := htw v h; omega
          · rcases List.mem_cons.1 h with rfl | h
            · omega
            · exact h

theorem binSearch_eq_decide_mem (b : List Nat) (v : Nat) (hb : b.Pairwise (· < ·)) :
    binSearch b v = decide (v ∈ b) := by
  have h := binSearchGo_eq_mem b.length b v (Nat.le_refl _) hb
  by_cases hm : v ∈ b
  · simp only [hm, decide_true_eq_true]
    exact h.2 hm
  · simp only [hm, decide_false_eq_false]
    rw [← Bool.not_eq_true, binSearch]
    rw [h]
    exact hm

theorem sorted_filter_mem_swap (a b : List Nat) (ha : a.Pairwise (· < ·))
    (hb : b.Pairwise (· < ·)) :
    a.filter (fun x => decide (x ∈ b)) = b.filter (fun x => decide (x ∈ a)) := by
  haveI : IsAntisymm Nat (· < ·) :=
    ⟨fun x y h1 h2 => absurd h2 (Nat.lt_asymm h1)⟩
  apply List.eq_of_perm_of_sorted ?_ (ha.filter _) (hb.filter _)
  have hna : (a.filter (fun x => decide (x ∈ b))).Nodup :=
    ((ha.imp fun h => Nat.ne_of_lt h).filter _)
  have hnb : (b.filter (fun x => decide (x ∈ a))).Nodup :=
    ((hb.imp fun h => Nat.ne_of_lt h).filter _)
  rw [List.perm_ext_iff_of_nodup hna hnb]
  intro z
  simp only [List.mem_filter, decide_eq_true_eq]
  tauto

theorem interLoop_nil_right (a : List Nat) : interLoop a [] = [] := by
  cases a <;> simp [interLoop]

theorem intersect_sets_eq_filter (a b : List Nat) (ha : a.Pairwise (· < ·))
    (hb : b.Pairwise (· < ·)) :
    intersect_sets a b = a.filter (fun x => decide (x ∈ b)) := by
  rw [intersect_sets]
  by_cases hempty : a = [] ∨ b = []
  · rw [if_pos hempty]
    rcases hempty with rfl | rfl
    · simp
    · simp
  · rw [if_neg hempty]
    by_cases hbig : a.length > b.length * 10 ∨ b.length > a.length * 10
    · rw [if_pos hbig, gallopIntersect]
      by_cases hlen : a.length < b.length
      · simp only [if_pos hlen]
        exact List.filter_congr fun v _ => binSearch_eq_decide_mem b v hb
      · simp only [if_neg hlen]
        rw [List.filter_congr fun v _ => binSearch_eq_decide_mem a v ha]
        exact (sorted_filter_mem_swap a b ha hb).symm
    · rw [if_neg hbig]
      exact interLoop_eq_filter a b ha hb

theorem differ_sets_eq_filter (a b : List Nat) (ha : a.Pairwise (· < ·))
    (hb : b.Pairwise (· < ·)) :
    differ_sets a b = a.filter (fun x => !decide (x ∈ b)) := by
  rw [differ_sets]
  by_cases hea : a = []
  · subst hea; simp
  · rw [if_neg hea]
    by_cases heb : b = []
    · subst heb
      rw [if_pos rfl]
      symm
      rw [List.filter_eq_self]
      intro z _
      simp
    · rw [if_neg heb]
      exact differLoop_eq_filter a b ha hb

/-- Claim C7: for strictly ascending duplicate-free ResultSets `A` and
`B`, the set operations satisfy `(A ∩ B) ∪ (A ∖ B) = A`, `A ∩ A = A`,
`A ∪ ∅ = A`, `A ∖ A = ∅`, and the outputs of `intersect_sets`,
`union_sets` and `differ_sets` are again strictly ascending (hence
duplicate-free). -/
theorem c7_setop_laws (A B : List Nat) (hA : A.Pairwise (· < ·))
    (hB : B.Pairwise (· < ·)) :
    union_sets (intersect_sets A B) (differ_sets A B) = A ∧
    intersect_sets A A = A ∧
    union_sets A [] = A ∧
    differ_sets A A = [] ∧
    (intersect_sets A B).Pairwise (· < ·) ∧
    (union_sets A B).Pairwise (· < ·) ∧
    (differ_sets A B).Pairwise (· < ·) := by
  refine ⟨?_, ?_, ?_, ?_, ?_, ?_, ?_⟩
  · rw [intersect_sets_eq_filter A B hA hB, differ_sets_eq_filter A B hA hB,
      union_sets_eq_unionLoop, unionLoop_filter_partition A hA]
  · rcases hA' : A with _ | ⟨x, xs⟩
    · simp [intersect_sets]
    · rw [intersect_sets, if_neg (by simp), if_neg (by omega)]
      exact interLoop_self _
  · rcases A with _ | ⟨x, xs⟩
    · simp [union_sets]
    · simp [union_sets]
  · rcases A with _ | ⟨x, xs⟩
    · simp [differ_sets]
    · rw [differ_sets, if_neg (by simp), if_neg (by simp)]
      exact differLoop_self _
  · rw [intersect_sets_eq_filter A B hA hB]
    exact hA.filter _
  · rw [union_sets_eq_unionLoop]
    exact pairwise_unionLoop A B hA hB
  · rw [differ_sets_eq_filter A B hA hB]
    exact hA.filter _

/-- Witness for C7 at `A = [1, 3]`, `B = [2, 3]`. -/
theorem c7_setop_laws_witness :
    ([1, 3] : List Nat).Pairwise (· < ·) ∧ ([2, 3] : List Nat).Pairwise (· < ·) ∧
    (union_sets (intersect_sets [1, 3] [2, 3]) (differ_sets [1, 3] [2, 3]) = [1, 3] ∧
     intersect_sets [1, 3] [1, 3] = [1, 3] ∧
     union_sets [1, 3] [] = [1, 3] ∧
     differ_sets [1, 3] [1, 3] = [] ∧
     (intersect_sets [1, 3] [2, 3]).Pairwise (· < ·) ∧
     (union_sets [1, 3] [2, 3]).Pairwise (· < ·) ∧
     (differ_sets [1, 3] [2, 3]).Pairwise (· < ·)) :=
  ⟨by decide, by decide, c7_setop_laws [1, 3] [2, 3] (by decide) (by decide)⟩

/-- Claim C10: on strictly ascending duplicate-free inputs the
binary-search strategy of `intersect_sets` (taken when one input is
more than 10 times larger than the other) produces exactly the same
output as the two-pointer merge strategy, so `intersect_sets` is
strategy-independent. -/
theorem c10_intersect_strategies_agree (A B : List Nat) (hA : A.Pairwise (· < ·))
    (hB : B.Pairwise (· < ·)) :
    gallopIntersect A B = interLoop A B ∧ intersect_sets A B = interLoop A B := by
  have h1 : gallopIntersect A B = interLoop A B := by
    rw [interLoop_eq_filter A B hA hB, gallopIntersect]
    by_cases hlen : A.length < B.length
    · simp only [if_pos hlen]
      exact List.filter_congr fun v _ => binSearch_eq_decide_mem B v hB
    · simp only [if_neg hlen]
      rw [List.filter_congr fun v _ => binSearch_eq_decide_mem A v hA]
      exact (sorted_filter_mem_swap A B hA hB).symm
  refine ⟨h1, ?_⟩
  rw [intersect_sets]
  by_cases hempty : A = [] ∨ B = []
  · rw [if_pos hempty]
    rcases hempty with rfl | rfl
    · simp [interLoop]
    · rw [interLoop_nil_right]
  · rw [if_neg hempty]
    by_cases hbig : A.length > B.length * 10 ∨ B.length > A.length * 10
    · rw [if_pos hbig]; exact h1
    · rw [if_neg hbig]

/-- Witness for C10 at `A = [5]`, `B = [1, 5]`. -/
theorem c10_intersect_strategies_agree_witness :
    ([5] : List Nat).Pairwise (· < ·) ∧ ([1, 5] : List Nat).Pairwise (· < ·) ∧
    (gallopIntersect [5] [1, 5] = interLoop [5] [1, 5] ∧
     intersect_sets [5] [1, 5] = interLoop [5] [1, 5]) :=
  ⟨by decide, by decide, c10_intersect_strategies_agree [5] [1, 5] (by decide) (by decide)⟩

theorem differ_sets_self (l : List Nat) : differ_sets l l = [] := by
  rcases l with _ | ⟨x, xs⟩
  · simp [differ_sets]
  · rw [differ_sets, if_neg (by simp), if_neg (by simp)]
    exact differLoop_self _

/-- Claim C1 counterexample: the AND fold does not intersect an
ordinary child into an empty running result — it evaluates the child
with an empty context and the child's result replaces the running
result.  With the fetch cache of the two-term query `a AND b` where
term `a` is absent (empty postings for `a`, postings `[1]` for `b`),
the evaluator returns `[1]`, while folding by intersection as the
claim states would return `[]`. -/
theorem c1_counterexample :
    execute_node [("b", [1])] (.mk .AND "" [qTerm "a", qTerm "b"]) [] = [1] ∧
    intersect_sets (execute_node [("b", [1])] (qTerm "a") [])
      (execute_node [("b", [1])] (qTerm "b") []) = [] ∧
    ([1] : List Nat) ≠ [] := by
  refine ⟨?_, ?_, by simp⟩
  · simp [execute_node, execAndLoop, qTerm, List.lookup]
  · simp [execute_node, qTerm, List.lookup, intersect_sets]

/-- Claim C1 (amended): the AND node folds left-to-right; while the
running result is non-empty an ordinary child is intersected into it
and a NOT child is evaluated as the difference of the running result
minus the child's result; when the running result is empty the child
is evaluated against an empty context and its result replaces the
running result (a NOT child is then computed against the synthesized
universe).  In particular, for distinct terms `a` and `b` with fetched
postings `Pa` and `Pb`, `eval(a AND NOT b) = eval(a) ∖ eval(b)` —
including when `eval(a)` is empty, because the universe
`Pa ∪ Pb` collapses to `Pb` and `Pb ∖ Pb = ∅`. -/
theorem c1_and_not_semantics (a b : String) (hab : a ≠ b) (Pa Pb : List Nat) :
    execute_node [(a, Pa), (b, Pb)] (.mk .AND "" [qTerm a, .mk .NOT "" [qTerm b]]) [] =
      differ_sets (execute_node [(a, Pa), (b, Pb)] (qTerm a) [])
        (execute_node [(a, Pa), (b, Pb)] (qTerm b) []) ∧
    (Pa = [] →
      execute_node [(a, Pa), (b, Pb)] (.mk .AND "" [qTerm a, qTerm b]) [] = Pb) ∧
    (Pa ≠ [] →
      execute_node [(a, Pa), (b, Pb)] (.mk .AND "" [qTerm a, qTerm b]) [] =
        intersect_sets Pa Pb) := by
  have hba : (b == a) = false := by
    simp only [beq_eq_false_iff_ne, ne_eq]
    exact fun h => hab h.symm
  have hlookup_a : List.lookup a [(a, Pa), (b, Pb)] = some Pa := by
    simp [List.lookup]
  have hlookup_b : List.lookup b [(a, Pa), (b, Pb)] = some Pb := by
    simp [List.lookup, hba]
  have heval_a : execute_node [(a, Pa), (b, Pb)] (qTerm a) [] = Pa := by
    rw [qTerm, execute_node]
    simp [hlookup_a]
  have heval_b : ∀ ctx, execute_node [(a, Pa), (b, Pb)] (qTerm b) ctx = Pb := by
    intro ctx
    rw [qTerm, execute_node]
    simp [hlookup_b]
  have heval_not : ∀ ctx, execute_node [(a, Pa), (b, Pb)] (.mk .NOT "" [qTerm b]) ctx =
      if ctx = [] then differ_sets (get_universe [(a, Pa), (b, Pb)]) Pb
      else differ_sets ctx Pb := by
    intro ctx
    rw [execute_node]
    simp only [reduceCtorEq, if_false, List.isEmpty_cons, Bool.false_eq_true, if_true,
      heval_b]
  have huniverse : Pa = [] → get_universe [(a, Pa), (b, Pb)] = Pb := by
    intro h
    subst h
    simp [get_universe, union_sets]
  refine ⟨?_, ?_, ?_⟩
  · by_cases hPa : Pa = []
    · subst hPa
      rw [execute_node]
      simp only [reduceCtorEq, if_false, List.isEmpty_cons, Bool.false_eq_true, if_true]
      rw [execAndLoop, if_pos rfl, heval_a, execAndLoop, if_pos rfl, execAndLoop]
      rw [heval_not, if_pos rfl, huniverse rfl, differ_sets_self, heval_b]
      simp [differ_sets]
      all_goals (intro c h; simp at h)
    · rw [execute_node]
      simp only [reduceCtorEq, if_false, List.isEmpty_cons, Bool.false_eq_true, if_true]
      rw [execAndLoop, if_pos rfl, heval_a, execAndLoop, if_neg hPa]
      simp only [QueryNode.op, reduceIte]
      rw [execAndLoop, heval_not, if_neg hPa, heval_b]
      all_goals (intro c h; simp at h)
  · intro hPa
    subst hPa
    rw [execute_node]
    simp only [reduceCtorEq, if_false, List.isEmpty_cons, Bool.false_eq_true, if_true]
    rw [execAndLoop, if_pos rfl, heval_a, execAndLoop, if_pos rfl, execAndLoop, heval_b]
    all_goals (intro c h; simp at h)
  · intro hPa
    rw [execute_node]
    simp only [reduceCtorEq, if_false, List.isEmpty_cons, Bool.false_eq_true, if_true]
    rw [execAndLoop, if_pos rfl, heval_a, execAndLoop, if_neg hPa]
    simp only [qTerm, QueryNode.op, reduceCtorEq, reduceIte, if_false]
    rw [execAndLoop]
    · exact congrArg (intersect_sets Pa) (heval_b [])
    all_goals (intro c h; simp at h)

/-- Witness for C1 at `a = "x"`, `b = "y"`, `Pa = [2, 3]`, `Pb = [3]`. -/
theorem c1_and_not_semantics_witness :
    ("x" : String) ≠ "y" ∧
    (execute_node [("x", [2, 3]), ("y", [3])]
        (.mk .AND "" [qTerm "x", .mk .NOT "" [qTerm "y"]]) [] =
      differ_sets (execute_node [("x", [2, 3]), ("y", [3])] (qTerm "x") [])
        (execute_node [("x", [2, 3]), ("y", [3])] (qTerm "y") []) ∧
    (([2, 3] : List Nat) = [] →
      execute_node [("x", [2, 3]), ("y", [3])] (.mk .AND "" [qTerm "x", qTerm "y"]) [] = [3]) ∧
    (([2, 3] : List Nat) ≠ [] →
      execute_node [("x", [2, 3]), ("y", [3])] (.mk .AND "" [qTerm "x", qTerm "y"]) [] =
        intersect_sets [2, 3] [3])) :=
  ⟨by decide, c1_and_not_semantics "x" "y" (by decide) [2, 3] [3]⟩

theorem selectCandidatesLoop_eq (max_candidates found : Nat) (inMap : Nat → Bool)
    (ids : List Nat) :
    selectCandidatesLoop max_candidates found inMap ids =
      (ids.filter inMap).take (max_candidates - found) := by
  induction ids generalizing found with
  | nil => simp [selectCandidatesLoop]
  | cons id rest ih =>
    rw [selectCandidatesLoop]
    by_cases hf : found ≥ max_candidates
    · rw [if_pos hf]
      have h0 : max_candidates - found = 0 := by omega
      simp [h0]
    · rw [if_neg hf]
      by_cases hm : inMap id
      · rw [if_pos hm, ih, List.filter_cons_of_pos hm]
        have hsucc : max_candidates - found = (max_candidates - (found + 1)) + 1 := by omega
        rw [hsucc, List.take_succ_cons]
      · rw [if_neg hm, ih, List.filter_cons_of_neg (by simpa using hm)]

/-- Claim C4 counterexample: for a Boolean candidate set of 1025 ids
(all present in the document map), `HighPerformanceIRSystem::search`
passes the first 100 ids to hydration and reranking — not the first
`MAX_RERANK_CANDIDATES = 1024` ids the claim requires. -/
theorem c4_counterexample :
    selectRerankCandidates (fun _ => true) (List.range 1025) = (List.range 1025).take 100 ∧
    (List.range 1025).take 100 ≠ (List.range 1025).take 1024 ∧
    (List.range 1025).length > MAX_RERANK_CANDIDATES := by
  refine ⟨?_, ?_, by simp [MAX_RERANK_CANDIDATES]⟩
  · rw [selectRerankCandidates, selectCandidatesLoop_eq]
    simp
  · intro h
    have := congrArg List.length h
    simp [List.length_take] at this

/-- Claim C4 (amended): the pipeline passes to hydration and reranking
the first `min(100, |candidates|)` candidate ids that are present in
the document-id map, in candidate order (so, when the candidate ids
are ascending and all hydratable, the first 100 ids in ascending
order); the configured `MAX_RERANK_CANDIDATES = 1024` of config.h is
not consulted by this code path. -/
theorem c4_candidate_cap (inMap : Nat → Bool) (ids : List Nat) :
    selectRerankCandidates inMap ids = (ids.filter inMap).take (min 100 ids.length) ∧
    (selectRerankCandidates inMap ids).length ≤ 100 ∧
    (ids.Pairwise (· < ·) → (selectRerankCandidates inMap ids).Pairwise (· < ·)) := by
  have h := selectCandidatesLoop_eq (min 100 ids.length) 0 inMap ids
  rw [Nat.sub_zero] at h
  refine ⟨by rw [selectRerankCandidates, h], ?_, ?_⟩
  · rw [selectRerankCandidates, h]
    simp only [List.length_take]
    omega
  · intro hp
    rw [selectRerankCandidates, h]
    exact (hp.filter _).sublist (List.take_sublist _ _)

/-- Witness for C4 (amended) at `inMap = (· ≠ 3)`, `ids = [3, 7]`. -/
theorem c4_candidate_cap_witness :
    selectRerankCandidates (fun x => decide (x ≠ 3)) [3, 7] =
        (([3, 7] : List Nat).filter (fun x => decide (x ≠ 3))).take (min 100 ([3, 7] : List Nat).length) ∧
    (selectRerankCandidates (fun x => decide (x ≠ 3)) [3, 7]).length ≤ 100 ∧
    (([3, 7] : List Nat).Pairwise (· < ·) →
      (selectRerankCandidates (fun x => decide (x ≠ 3)) [3, 7]).Pairwise (· < ·)) :=
  c4_candidate_cap (fun x => decide (x ≠ 3)) [3, 7]

theorem mergePass_length : ∀ files : List (List TermDocPair),
    (mergePass files).length = (files.length + 1) / 2
  | [] => by simp [mergePass]
  | [_] => by simp [mergePass]
  | f1 :: f2 :: rest => by
    rw [mergePass]
    simp only [List.length_cons, mergePass_length rest]
    omega

theorem mergePass_ne_nil (files : List (List TermDocPair)) (h : files ≠ []) :
    mergePass files ≠ [] := by
  intro hcon
  have := mergePass_length files
  rw [hcon] at this
  simp at this
  rcases files with _ | ⟨f, rest⟩
  · exact h rfl
  · simp at this
    omega

theorem mergePass_odd_last : ∀ files : List (List TermDocPair),
    files.length % 2 = 1 → (mergePass files).getLast? = files.getLast?
  | [], h => by simp at h
  | [_], _ => by simp [mergePass]
  | f1 :: f2 :: rest, h => by
    have hodd : rest.length % 2 = 1 := by
      simp only [List.length_cons] at h
      omega
    have hne : rest ≠ [] := by
      intro hcon
      rw [hcon] at hodd
      simp at hodd
    rcases hmp : mergePass rest with _ | ⟨m, ms⟩
    · exact absurd hmp (mergePass_ne_nil rest hne)
    · rcases rest with _ | ⟨r, rest'⟩
      · exact absurd rfl hne
      · rw [mergePass, hmp, List.getLast?_cons_cons, ← hmp,
          mergePass_odd_last (r :: rest') hodd,
          List.getLast?_cons_cons, List.getLast?_cons_cons]

theorem mergeLoopGo_spec (fuel : Nat) : ∀ files : List (List TermDocPair),
    1 ≤ files.length → files.length ≤ fuel →
    (mergeLoopGo fuel files).1 = Nat.clog 2 files.length ∧
    (mergeLoopGo fuel files).2.length = 1 := by
  induction fuel with
  | zero => intro files h1 h2; omega
  | succ fuel ih =>
    intro files h1 h2
    rw [mergeLoopGo]
    by_cases hgt : 1 < files.length
    · rw [if_pos hgt]
      have hlen := mergePass_length files
      have hnext1 : 1 ≤ (mergePass files).length := by omega
      have hnext2 : (mergePass files).length ≤ fuel := by omega
      have hrec := ih (mergePass files) hnext1 hnext2
      have harg : (files.length + 2 - 1) / 2 = (files.length + 1) / 2 := by omega
      have hclog : Nat.clog 2 files.length = Nat.clog 2 ((files.length + 1) / 2) + 1 := by
        rw [Nat.clog_of_two_le (by norm_num) (by omega), harg]
      constructor
      · simp only [hrec.1, hlen, hclog]
      · simp only [hrec.2]
    · rw [if_neg hgt]
      have hone : files.length = 1 := by omega
      refine ⟨?_, hone⟩
      rw [hone, Nat.clog_one_right]

/-- Claim C9: for an initial run count of at least one, the pairwise
merge phase terminates after exactly `⌈log₂ R₀⌉` passes (modelled as
`Nat.clog 2 R₀`), ending with one file; each pass two-way merges
adjacent file pairs — its output has `⌈n/2⌉` files — and carries an
unpaired odd trailing file forward untouched. -/
theorem c9_merge_passes (files : List (List TermDocPair)) (h : 1 ≤ files.length) :
    (merge_runs files).1 = Nat.clog 2 files.length ∧
    (merge_runs files).2.length = 1 ∧
    (mergePass files).length = (files.length + 1) / 2 ∧
    (files.length % 2 = 1 → (mergePass files).getLast? = files.getLast?) := by
  have hspec := mergeLoopGo_spec files.length files h (Nat.le_refl _)
  exact ⟨hspec.1, hspec.2, mergePass_length files, mergePass_odd_last files⟩

/-- Witness for C9 at a single run file. -/
theorem c9_merge_passes_witness :
    1 ≤ ([[]] : List (List TermDocPair)).length ∧
    ((merge_runs [[]]).1 = Nat.clog 2 ([[]] : List (List TermDocPair)).length ∧
     (merge_runs [[]]).2.length = 1 ∧
     (mergePass ([[]] : List (List TermDocPair))).length =
       (([[]] : List (List TermDocPair)).length + 1) / 2 ∧
     (([[]] : List (List TermDocPair)).length % 2 = 1 →
       (mergePass ([[]] : List (List TermDocPair))).getLast? =
         ([[]] : List (List TermDocPair)).getLast?)) :=
  ⟨by decide, c9_merge_passes [[]] (by decide)⟩

/-- Claim C3 counterexample: with one job still queued at shutdown,
the `BatchedGpuReranker` abandons it — its future ends in the
broken-promise state, not fulfilled with a `Cancelled` error; and the
`GpuWorkerPool` drains the queued job with its result, again not a
`Cancelled` error.  So no queued job is ever fulfilled with
`Cancelled` as the claim requires. -/
theorem c3_counterexample :
    batched_shutdown_outcomes Nat [[(0 : Nat)]] = [FutureOutcome.brokenPromise] ∧
    (FutureOutcome.brokenPromise : FutureOutcome Nat) ≠ FutureOutcome.cancelled ∧
    worker_loop_after_stop (fun j : Nat => Except.ok j) [0] = [FutureOutcome.fulfilled 0] ∧
    (FutureOutcome.fulfilled (0 : Nat)) ≠ FutureOutcome.cancelled := by
  refine ⟨rfl, by simp, rfl, by simp⟩

/-- Claim C3 (amended): after destruction no future is fulfilled with
a `Cancelled` error.  The `GpuWorkerPool` worker drains the queue:
every queued job's future is fulfilled with its rerank result (or the
worker's exception).  The `BatchedGpuReranker` worker exits without
touching the queue: every still-queued job's future ends in the
broken-promise error state. -/
theorem c3_shutdown_behaviour {J ρ : Type} (rerank : J → Except Unit ρ) (q : List J)
    (batches : List (List J)) :
    worker_loop_after_stop rerank q =
      q.map (fun j =>
        match rerank j with
        | .ok r => FutureOutcome.fulfilled r
        | .error _ => FutureOutcome.failed) ∧
    (∀ o ∈ worker_loop_after_stop rerank q,
      o ≠ FutureOutcome.cancelled ∧ o ≠ FutureOutcome.brokenPromise) ∧
    (batched_shutdown_outcomes ρ batches).length = (List.flatten batches).length ∧
    (∀ o ∈ batched_shutdown_outcomes ρ batches,
      o = FutureOutcome.brokenPromise ∧ o ≠ FutureOutcome.cancelled) := by
  refine ⟨?_, ?_, by simp only [batched_shutdown_outcomes, List.length_map], ?_⟩
  · induction q with
    | nil => rfl
    | cons j rest ih => rw [worker_loop_after_stop, ih]; rfl
  · intro o ho
    induction q with
    | nil => simp [worker_loop_after_stop] at ho
    | cons j rest ih =>
      rw [worker_loop_after_stop] at ho
      rcases List.mem_cons.1 ho with rfl | ho'
      · rcases hr : rerank j with r | e <;> simp [hr]
      · exact ih ho'
  · intro o ho
    simp only [batched_shutdown_outcomes, List.mem_map] at ho
    obtain ⟨j, _, rfl⟩ := ho
    simp

/-- Witness for C3 (amended) at one queued pool job and one queued
batch. -/
theorem c3_shutdown_behaviour_witness :
    worker_loop_after_stop (fun j : Nat => Except.ok (j + 1)) [5] =
      ([5] : List Nat).map (fun j =>
        match Except.ok (ε := Unit) (j + 1) with
        | .ok r => FutureOutcome.fulfilled r
        | .error _ => FutureOutcome.failed) ∧
    (∀ o ∈ worker_loop_after_stop (fun j : Nat => Except.ok (j + 1)) [5],
      o ≠ FutureOutcome.cancelled ∧ o ≠ FutureOutcome.brokenPromise) ∧
    (batched_shutdown_outcomes Nat [[(2 : Nat)]]).length =
      (List.flatten [[(2 : Nat)]]).length ∧
    (∀ o ∈ batched_shutdown_outcomes Nat [[(2 : Nat)]],
      o = FutureOutcome.brokenPromise ∧ o ≠ FutureOutcome.cancelled) :=
  c3_shutdown_behaviour (fun j : Nat => Except.ok (j + 1)) [5] [[2]]

theorem doc_offsets_records_fst : ∀ (off : Nat) (docs : List Document),
    (doc_offsets_records off docs).map Prod.fst = docs.map Document.id
  | _, [] => rfl
  | off, d :: rest => by
    rw [doc_offsets_records]
    simp only [List.map_cons]
    rw [doc_offsets_records_fst]

theorem doc_offsets_records_chain : ∀ (off : Nat) (docs : List Document),
    ((doc_offsets_records off docs).map Prod.snd).Chain' (· < ·)
  | _, [] => by simp [doc_offsets_records]
  | off, d :: rest => by
    rw [doc_offsets_records]
    simp only [List.map_cons]
    rw [List.chain'_cons']
    refine ⟨?_, doc_offsets_records_chain _ rest⟩
    intro y hy
    rcases rest with _ | ⟨e, rest'⟩
    · simp [doc_offsets_records] at hy
    · rw [doc_offsets_records] at hy
      simp only [List.map_cons, List.head?_cons, Option.mem_def, Option.some.injEq] at hy
      omega

theorem doc_names_records_cons (names : List (Nat × String)) (d : Document)
    (docs : List Document) :
    doc_names_records names (d :: docs) =
      match List.lookup d.id names with
      | none => doc_names_records names docs
      | some nm => (d.id, nm) :: doc_names_records names docs := by
  rw [doc_names_records, List.filterMap_cons]
  rcases List.lookup d.id names with _ | nm <;> rfl

theorem doc_names_records_fst_subset (names : List (Nat × String)) :
    ∀ docs : List Document,
    ∀ i ∈ (doc_names_records names docs).map Prod.fst, i ∈ docs.map Document.id := by
  intro docs
  induction docs with
  | nil =>
    intro i hi
    simp [doc_names_records] at hi
  | cons d rest ih =>
    intro i hi
    rw [doc_names_records_cons] at hi
    rcases hl : List.lookup d.id names with _ | nm <;> rw [hl] at hi
    · simp only [List.map_cons]
      exact List.mem_cons_of_mem _ (ih i hi)
    · rcases List.mem_cons.1 hi with rfl | hi'
      · simp
      · simp only [List.map_cons, List.mem_cons]
        exact Or.inr (ih i hi')

theorem doc_names_records_count (names : List (Nat × String)) :
    ∀ (docs : List Document) (i : Nat), (docs.map Document.id).Nodup →
    i ∈ docs.map Document.id →
    ((doc_names_records names docs).map Prod.fst).count i =
      if (List.lookup i names).isSome then 1 else 0 := by
  intro docs
  induction docs with
  | nil =>
    intro i _ hi
    simp at hi
  | cons d rest ih =>
    intro i hnd hi
    have hnd' : (rest.map Document.id).Nodup := (List.nodup_cons.1 hnd).2
    have hdni : d.id ∉ rest.map Document.id := (List.nodup_cons.1 hnd).1
    rw [doc_names_records_cons]
    rcases List.mem_cons.1 hi with hid | hitail
    · subst hid
      have hzero : ((doc_names_records names rest).map Prod.fst).count d.id = 0 := by
        rw [List.count_eq_zero]
        intro hmem
        exact hdni (doc_names_records_fst_subset names rest d.id hmem)
      rcases hl : List.lookup d.id names with _ | nm
      · simp only [Option.isSome_none, Bool.false_eq_true, if_false]
        exact hzero
      · simp only [Option.isSome_some, if_true]
        show (((d.id, nm) :: doc_names_records names rest).map Prod.fst).count d.id = 1
        simp only [List.map_cons, List.count_cons_self, hzero]
    · have hne : i ≠ d.id := by
        intro hcon
        exact hdni (hcon ▸ hitail)
      rcases hl : List.lookup d.id names with _ | nm
      · exact ih i hnd' hitail
      · show (((d.id, nm) :: doc_names_records names rest).map Prod.fst).count i =
          if (List.lookup i names).isSome then 1 else 0
        simp only [List.map_cons]
        rw [List.count_cons_of_ne hne]
        exact ih i hnd' hitail

/-- Claim C6 counterexample: with the singleton collection
`[{id 0, content "x"}]` and an empty id-to-name map, id 0 (which lies
in `[0, doc_count)`) receives no record at all in `doc_names.dat`,
because `create_document_store` writes a name record only when the id
is found in the map. -/
theorem c6_counterexample :
    doc_names_records [] [⟨0, "x"⟩] = [] ∧
    ((doc_names_records [] [⟨0, "x"⟩]).map Prod.fst).count 0 = 0 ∧
    (0 : Nat) < ([⟨0, "x"⟩] : List Document).length := by
  refine ⟨rfl, rfl, by simp⟩

/-- Claim C6 (amended): for a collection with dense 0-based ids, every
id in `[0, doc_count)` gets exactly one record in `documents.dat` and
exactly one record in `doc_offsets.dat`; it gets exactly one record in
`doc_names.dat` when it is present in the id-to-name map and none
otherwise; and the offsets recorded in `doc_offsets.dat` are strictly
increasing in write order. -/
theorem c6_docstore_records (docs : List Document) (names : List (Nat × String))
    (hids : docs.map Document.id = List.range docs.length) (i : Nat)
    (hi : i < docs.length) :
    ((doc_offsets_records 0 docs).map Prod.fst).count i = 1 ∧
    ((documents_records docs).map (fun r => r.1)).count i = 1 ∧
    (((doc_names_records names docs).map Prod.fst).count i =
      if (List.lookup i names).isSome then 1 else 0) ∧
    ((doc_offsets_records 0 docs).map Prod.snd).Chain' (· < ·) := by
  have hmem : i ∈ docs.map Document.id := by
    rw [hids]
    exact List.mem_range.2 hi
  have hnd : (docs.map Document.id).Nodup := by
    rw [hids]
    exact List.nodup_range _
  refine ⟨?_, ?_, ?_, doc_offsets_records_chain 0 docs⟩
  · rw [doc_offsets_records_fst, hids]
    exact List.count_eq_one_of_mem (List.nodup_range _) (List.mem_range.2 hi)
  · have hfst : (documents_records docs).map (fun r => r.1) = docs.map Document.id := by
      rw [documents_records, List.map_map]
      rfl
    rw [hfst, hids]
    exact List.count_eq_one_of_mem (List.nodup_range _) (List.mem_range.2 hi)
  · exact doc_names_records_count names docs i hnd hmem

/-- Witness for C6 (amended) at a two-document collection with one
named document. -/
theorem c6_docstore_records_witness :
    ([⟨0, "u"⟩, ⟨1, "vw"⟩] : List Document).map Document.id =
      List.range ([⟨0, "u"⟩, ⟨1, "vw"⟩] : List Document).length ∧
    1 < ([⟨0, "u"⟩, ⟨1, "vw"⟩] : List Document).length ∧
    (((doc_offsets_records 0 [⟨0, "u"⟩, ⟨1, "vw"⟩]).map Prod.fst).count 1 = 1 ∧
     ((documents_records [⟨0, "u"⟩, ⟨1, "vw"⟩]).map (fun r => r.1)).count 1 = 1 ∧
     (((doc_names_records [(0, "n")] [⟨0, "u"⟩, ⟨1, "vw"⟩]).map Prod.fst).count 1 =
       if (List.lookup 1 [(0, "n")]).isSome then 1 else 0) ∧
     ((doc_offsets_records 0 [⟨0, "u"⟩, ⟨1, "vw"⟩]).map Prod.snd).Chain' (· < ·)) :=
  ⟨by decide, by decide,
    c6_docstore_records [⟨0, "u"⟩, ⟨1, "vw"⟩] [(0, "n")] (by decide) 1 (by decide)⟩

theorem tdpLe_same_term_doc_le (cur : String) (a b : Nat)
    (h : tdpLe (TermDocPair.mk cur a) (TermDocPair.mk cur b)) : a ≤ b := by
  rw [tdpLe, tdpLt] at h
  simp at h
  omega

theorem chain_pairs_to_docs (cur : String) (ps : List Nat)
    (h : List.Chain' tdpLe (ps.map (fun d => TermDocPair.mk cur d))) :
    ps.Chain' (· ≤ ·) := by
  rw [List.chain'_map] at h
  exact List.Chain'.imp (fun a b hab => tdpLe_same_term_doc_le cur a b hab) h

theorem groupFlush_postings_chain (run : List TermDocPair)
    (hterms : ∀ p ∈ run, p.term ≠ "") :
    ∀ (cur : String) (ps : List Nat),
    (cur = "" → ps = []) →
    List.Chain' tdpLe (ps.map (fun d => TermDocPair.mk cur d) ++ run) →
    ∀ e ∈ groupFlush run cur ps, e.2.Chain' (· ≤ ·) := by
  induction run with
  | nil =>
    intro cur ps _ hchain e he
    rw [groupFlush] at he
    by_cases hc : cur = ""
    · rw [if_pos hc] at he
      simp at he
    · rw [if_neg hc] at he
      simp only [List.mem_singleton] at he
      subst he
      rw [List.append_nil] at hchain
      exact chain_pairs_to_docs cur ps hchain
  | cons p rest ih =>
    intro cur ps hcur hchain e he
    have hterms' : ∀ q ∈ rest, q.term ≠ "" := fun q hq => hterms q (List.mem_cons_of_mem _ hq)
    have hpterm : p.term ≠ "" := hterms p (List.mem_cons_self _ _)
    have heta : TermDocPair.mk p.term p.doc_id = p := rfl
    rw [groupFlush] at he
    by_cases hflush : p.term ≠ cur ∧ cur ≠ ""
    · rw [if_pos hflush] at he
      have hparts := List.chain'_append.1 hchain
      rcases List.mem_cons.1 he with rfl | he'
      · exact chain_pairs_to_docs cur ps hparts.1
      · refine ih hterms' p.term [p.doc_id] (fun h => absurd h hpterm) ?_ e he'
        simp only [List.map_cons, List.map_nil, List.singleton_append, heta]
        exact hparts.2.1
    · rw [if_neg hflush] at he
      by_cases hc : cur = ""
      · have hps : ps = [] := hcur hc
        subst hps
        refine ih hterms' p.term [p.doc_id] (fun h => absurd h hpterm) ?_ e he
        simp only [List.map_cons, List.map_nil, List.singleton_append, heta]
        simpa using hchain
      · have hpc : p.term = cur := by
          by_contra hne
          exact hflush ⟨hne, hc⟩
        refine ih hterms' p.term (ps ++ [p.doc_id]) (fun h => absurd h (hpc ▸ hc)) ?_ e he
        rw [hpc, List.map_append]
        simp only [List.map_cons, List.map_nil]
        rw [List.append_assoc, List.singleton_append]
        have hp2 : TermDocPair.mk cur p.doc_id = p := by rw [← hpc]
        rw [hp2]
        exact hchain

/-- Claim C2 counterexample: the merged run
`[("t", 5), ("t", 5)]` — a term occurring twice in document 5, which
is sorted by (term, doc id) — is emitted by Phase 3 as the posting
list `[5, 5]` for term `t`: ascending but with a duplicate doc-id, so
not strictly ascending.  `create_sharded_index_files` performs no
de-duplication. -/
theorem c2_counterexample :
    List.Chain' tdpLe [TermDocPair.mk "t" 5, TermDocPair.mk "t" 5] ∧
    merged_run_entries [TermDocPair.mk "t" 5, TermDocPair.mk "t" 5] = [("t", [5, 5])] ∧
    ¬ ([5, 5] : List Nat).Chain' (· < ·) := by
  refine ⟨?_, by decide, ?_⟩
  · simp [List.chain'_cons, List.chain'_singleton, tdpLe, tdpLt]
  · simp [List.chain'_cons, List.chain'_singleton]

/-- Claim C2 (amended): for every sorted merged run (with non-empty
terms), every posting list emitted by Phase 3 — both before and after
hash routing to a shard — is ascending (non-decreasing); duplicate
`(term, doc_id)` pairs in the run are preserved as duplicate doc-ids
in the posting list, so the lists need not be strictly ascending. -/
theorem c2_shard_postings_ascending (run : List TermDocPair)
    (hsorted : List.Chain' tdpLe run) (hterms : ∀ p ∈ run, p.term ≠ "")
    (hashFn : String → Nat) (num_shards k : Nat) :
    (∀ e ∈ merged_run_entries run, e.2.Chain' (· ≤ ·)) ∧
    (∀ e ∈ shard_dict hashFn num_shards k run, e.2.Chain' (· ≤ ·)) := by
  have h := groupFlush_postings_chain run hterms "" [] (fun _ => rfl)
    (by simpa using hsorted)
  exact ⟨h, fun e he => h e (List.mem_of_mem_filter he)⟩

/-- Witness for C2 (amended) at the run
`[("a", 1), ("a", 2), ("b", 1)]` routed to a single shard. -/
theorem c2_shard_postings_ascending_witness :
    List.Chain' tdpLe [TermDocPair.mk "a" 1, TermDocPair.mk "a" 2, TermDocPair.mk "b" 1] ∧
    (∀ p ∈ [TermDocPair.mk "a" 1, TermDocPair.mk "a" 2, TermDocPair.mk "b" 1],
      p.term ≠ "") ∧
    ((∀ e ∈ merged_run_entries
        [TermDocPair.mk "a" 1, TermDocPair.mk "a" 2, TermDocPair.mk "b" 1],
      e.2.Chain' (· ≤ ·)) ∧
     (∀ e ∈ shard_dict (fun _ => 0) 1 0
        [TermDocPair.mk "a" 1, TermDocPair.mk "a" 2, TermDocPair.mk "b" 1],
      e.2.Chain' (· ≤ ·))) :=
  ⟨by simp [List.chain'_cons, List.chain'_singleton, tdpLe, tdpLt, strLtb], by decide,
    c2_shard_postings_ascending [TermDocPair.mk "a" 1, TermDocPair.mk "a" 2,
        TermDocPair.mk "b" 1]
      (by simp [List.chain'_cons, List.chain'_singleton, tdpLe, tdpLt, strLtb])
      (by decide) (fun _ => 0) 1 0⟩

/-! ## Lemmas about the text normaliser (claim C8) -/

theorem toLowerChar_eq_self (c : Char) (h : ¬('A' ≤ c ∧ c ≤ 'Z')) :
    toLowerChar c = c := by
  rw [toLowerChar, if_neg h]

theorem toLowerChar_toNat_of_upper (c : Char) (h : 'A' ≤ c ∧ c ≤ 'Z') :
    (toLowerChar c).toNat = c.toNat + 32 := by
  have h90 : c.toNat ≤ 90 := Char.le_def.1 h.2
  rw [toLowerChar, if_pos h, Char.ofNat, dif_pos]
  · rfl
  · constructor
    omega

theorem toLowerChar_not_upper (c : Char) :
    ¬('A' ≤ toLowerChar c ∧ toLowerChar c ≤ 'Z') := by
  by_cases h : 'A' ≤ c ∧ c ≤ 'Z'
  · rintro ⟨_, hup⟩
    have h2 : (toLowerChar c).toNat ≤ 90 := Char.le_def.1 hup
    have h65 : 65 ≤ c.toNat := Char.le_def.1 h.1
    rw [toLowerChar_toNat_of_upper c h] at h2
    omega
  · rw [toLowerChar_eq_self c h]
    exact h

theorem toLowerChar_idem (c : Char) :
    toLowerChar (toLowerChar c) = toLowerChar c :=
  toLowerChar_eq_self _ (toLowerChar_not_upper c)

theorem map_id_of_mem {α : Type} (f : α → α) :
    ∀ l : List α, (∀ c ∈ l, f c = c) → l.map f = l
  | [], _ => rfl
  | x :: xs, h => by
    rw [List.map_cons, h x (List.mem_cons_self _ _),
      map_id_of_mem f xs (fun c hc => h c (List.mem_cons_of_mem _ hc))]

theorem depunct_lower_chars (s : List Char) :
    ∀ c ∈ remove_punctuation (to_lowercase s),
      toLowerChar c = c ∧ (isAlnumChar c || isSpaceChar c || c = '(' || c = ')') = true := by
  intro c hc
  rw [remove_punctuation, to_lowercase, List.map_map] at hc
  obtain ⟨y, _, rfl⟩ := List.mem_map.1 hc
  simp only [Function.comp_apply]
  split_ifs with hk
  · exact ⟨toLowerChar_idem y, by simpa using hk⟩
  · exact ⟨by decide, by decide⟩

theorem tokenize_tokens_good (s : List Char) :
    ∀ t ∈ tokenize s, t ≠ [] ∧ ∀ c ∈ t, isSpaceChar c = false := by
  induction s using tokenize.induct with
  | case1 => intro t ht; simp [tokenize] at ht
  | case2 c cs hsp ih =>
    intro t ht
    rw [tokenize, if_pos hsp] at ht
    exact ih t ht
  | case3 c cs hsp ih =>
    intro t ht
    rw [tokenize, if_neg hsp] at ht
    rcases List.mem_cons.1 ht with rfl | ht'
    · refine ⟨by simp, ?_⟩
      intro x hx
      rcases List.mem_cons.1 hx with rfl | hx'
      · simpa using hsp
      · have := List.mem_takeWhile_imp hx'
        simpa using this
    · exact ih t ht'

theorem tokenize_chars_sub (s : List Char) :
    ∀ t ∈ tokenize s, ∀ c ∈ t, c ∈ s := by
  induction s using tokenize.induct with
  | case1 => intro t ht; simp [tokenize] at ht
  | case2 c cs hsp ih =>
    intro t ht x hx
    rw [tokenize, if_pos hsp] at ht
    exact List.mem_cons_of_mem _ (ih t ht x hx)
  | case3 c cs hsp ih =>
    intro t ht x hx
    rw [tokenize, if_neg hsp] at ht
    rcases List.mem_cons.1 ht with rfl | ht'
    · rcases List.mem_cons.1 hx with rfl | hx'
      · exact List.mem_cons_self _ _
      · exact List.mem_cons_of_mem _
          ((List.takeWhile_sublist _).subset hx')
    · exact List.mem_cons_of_mem _
        ((List.dropWhile_sublist _).subset (ih t ht' x hx))

theorem takeWhile_append_all (p : Char → Bool) :
    ∀ t l : List Char, (∀ c ∈ t, p c = true) →
    (t ++ l).takeWhile p = t ++ l.takeWhile p
  | [], l, _ => rfl
  | x :: xs, l, h => by
    have hx := h x (List.mem_cons_self _ _)
    rw [List.cons_append, List.takeWhile_cons, if_pos hx,
      takeWhile_append_all p xs l (fun c hc => h c (List.mem_cons_of_mem _ hc))]
    rfl

theorem dropWhile_append_all (p : Char → Bool) :
    ∀ t l : List Char, (∀ c ∈ t, p c = true) →
    (t ++ l).dropWhile p = l.dropWhile p
  | [], l, _ => rfl
  | x :: xs, l, h => by
    have hx := h x (List.mem_cons_self _ _)
    rw [List.cons_append, List.dropWhile_cons, if_pos hx]
    exact dropWhile_append_all p xs l (fun c hc => h c (List.mem_cons_of_mem _ hc))

theorem tokenize_joinTokens :
    ∀ T : List (List Char),
    (∀ t ∈ T, t ≠ [] ∧ ∀ c ∈ t, isSpaceChar c = false) →
    tokenize (joinTokens T) = T
  | [], _ => by simp [joinTokens, tokenize]
  | [t], h => by
    obtain ⟨hne, hns⟩ := h t (List.mem_cons_self _ _)
    rcases t with _ | ⟨c, t'⟩
    · exact absurd rfl hne
    · rw [joinTokens, tokenize,
        if_neg (by simpa using hns c (List.mem_cons_self _ _))]
      have hall : ∀ x ∈ t', (!isSpaceChar x) = true := by
        intro x hx
        simpa using hns x (List.mem_cons_of_mem _ hx)
      have htake : t'.takeWhile (fun x => !isSpaceChar x) = t' := by
        have := takeWhile_append_all (fun x => !isSpaceChar x) t' [] hall
        simpa using this
      have hdrop : t'.dropWhile (fun x => !isSpaceChar x) = [] := by
        have := dropWhile_append_all (fun x => !isSpaceChar x) t' [] hall
        simpa using this
      rw [htake, hdrop]
      simp [tokenize]
  | t :: t2 :: ts, h => by
    obtain ⟨hne, hns⟩ := h t (List.mem_cons_self _ _)
    have hrest : ∀ u ∈ t2 :: ts, u ≠ [] ∧ ∀ c ∈ u, isSpaceChar c = false :=
      fun u hu => h u (List.mem_cons_of_mem _ hu)
    rcases t with _ | ⟨c, t'⟩
    · exact absurd rfl hne
    · rw [joinTokens, List.cons_append, tokenize,
        if_neg (by simpa using hns c (List.mem_cons_self _ _))]
      have hall : ∀ x ∈ t', (!isSpaceChar x) = true := by
        intro x hx
        simpa using hns x (List.mem_cons_of_mem _ hx)
      rw [takeWhile_append_all _ t' _ hall, dropWhile_append_all _ t' _ hall]
      rw [List.takeWhile_cons_of_neg (by decide), List.dropWhile_cons_of_neg (by decide)]
      rw [List.append_nil, tokenize, if_pos (by decide)]
      rw [tokenize_joinTokens (t2 :: ts) hrest]

theorem mem_joinTokens :
    ∀ (T : List (List Char)) (c : Char), c ∈ joinTokens T →
      c = ' ' ∨ ∃ t ∈ T, c ∈ t
  | [], c, hc => by simp [joinTokens] at hc
  | [t], c, hc => by
    rw [joinTokens] at hc
    exact Or.inr ⟨t, List.mem_cons_self _ _, hc⟩
  | t :: t2 :: ts, c, hc => by
    rw [joinTokens] at hc
    rcases List.mem_append.1 hc with h | h
    · exact Or.inr ⟨t, List.mem_cons_self _ _, h⟩
    · rcases List.mem_cons.1 h with rfl | h'
      · exact Or.inl rfl
      · rcases mem_joinTokens (t2 :: ts) c h' with h'' | ⟨u, hu, hcu⟩
        · exact Or.inl h''
        · exact Or.inr ⟨u, List.mem_cons_of_mem _ hu, hcu⟩

theorem joinTokens_ne_nil (t : List Char) (ts : List (List Char)) (h : t ≠ []) :
    joinTokens (t :: ts) ≠ [] := by
  rcases ts with _ | ⟨t2, ts'⟩
  · rw [joinTokens]; exact h
  · rw [joinTokens]
    simp

theorem joinTokens_reverse_head :
    ∀ T : List (List Char),
    (∀ t ∈ T, t ≠ [] ∧ ∀ c ∈ t, isSpaceChar c = false) →
    (joinTokens T).reverse = [] ∨
      ∃ c rest, (joinTokens T).reverse = c :: rest ∧ isSpaceChar c = false
  | [], _ => Or.inl rfl
  | [t], h => by
    obtain ⟨hne, hns⟩ := h t (List.mem_cons_self _ _)
    rcases hrev : t.reverse with _ | ⟨c, rest⟩
    · exact absurd (by simpa using congrArg List.reverse hrev) hne
    · refine Or.inr ⟨c, rest, by rw [joinTokens, hrev], ?_⟩
      have : c ∈ t.reverse := by rw [hrev]; exact List.mem_cons_self _ _
      exact hns c (List.mem_reverse.1 this)
  | t :: t2 :: ts, h => by
    have hrest : ∀ u ∈ t2 :: ts, u ≠ [] ∧ ∀ c ∈ u, isSpaceChar c = false :=
      fun u hu => h u (List.mem_cons_of_mem _ hu)
    have hne2 : joinTokens (t2 :: ts) ≠ [] :=
      joinTokens_ne_nil t2 ts (hrest t2 (List.mem_cons_self _ _)).1
    rcases joinTokens_reverse_head (t2 :: ts) hrest with habs | ⟨c, rest, hrev, hc⟩
    · exact absurd (by simpa using congrArg List.reverse habs) hne2
    · refine Or.inr ⟨c, rest ++ ' ' :: t.reverse, ?_, hc⟩
      rw [joinTokens, List.reverse_append, List.reverse_cons, hrev]
      simp

theorem trimEnds_joinTokens (T : List (List Char))
    (h : ∀ t ∈ T, t ≠ [] ∧ ∀ c ∈ t, isSpaceChar c = false) :
    trimEnds (joinTokens T) = joinTokens T := by
  have hdrop : (joinTokens T).dropWhile isSpaceChar = joinTokens T := by
    rcases T with _ | ⟨t, ts⟩
    · rfl
    · obtain ⟨hne, hns⟩ := h t (List.mem_cons_self _ _)
      rcases t with _ | ⟨c, t'⟩
      · exact absurd rfl hne
      · rcases ts with _ | ⟨t2, ts'⟩
        · rw [joinTokens, List.dropWhile_cons_of_neg
            (by simp [hns c (List.mem_cons_self _ _)])]
        · rw [joinTokens, List.cons_append, List.dropWhile_cons_of_neg
            (by simp [hns c (List.mem_cons_self _ _)])]
  rw [trimEnds, hdrop]
  rcases joinTokens_reverse_head T h with hrev | ⟨c, rest, hrev, hc⟩
  · rw [hrev]
    simpa using congrArg List.reverse hrev
  · rw [hrev, List.dropWhile_cons_of_neg (by simp [hc]), ← hrev]
    simp

theorem preprocess_eq_joinTokens (s : List Char) :
    preprocess s = joinTokens
      ((tokenize (remove_punctuation (to_lowercase s))).filter
        (fun t => !(stop_words.contains (String.mk t)))) := by
  rw [preprocess, remove_stop_words]
  apply trimEnds_joinTokens
  intro t ht
  exact tokenize_tokens_good _ t (List.mem_of_mem_filter ht)

/-- Claim C8: the text-normalisation pipeline of
`QueryPreprocessor::preprocess` (lowercase, punctuation to spaces
keeping alphanumerics and parentheses, whitespace tokenisation,
stop-word removal with space-join, trim) is idempotent:
`preprocess (preprocess x) = preprocess x` for every input. -/
theorem c8_normalize_idempotent (s : List Char) :
    preprocess (preprocess s) = preprocess s := by
  set T := (tokenize (remove_punctuation (to_lowercase s))).filter
    (fun t => !(stop_words.contains (String.mk t))) with hT
  have hTgood : ∀ t ∈ T, t ≠ [] ∧ ∀ c ∈ t, isSpaceChar c = false := by
    intro t ht
    exact tokenize_tokens_good _ t (List.mem_of_mem_filter ht)
  have hchars : ∀ c ∈ joinTokens T, toLowerChar c = c ∧
      (isAlnumChar c || isSpaceChar c || c = '(' || c = ')') = true := by
    intro c hc
    rcases mem_joinTokens T c hc with rfl | ⟨t, ht, hct⟩
    · exact ⟨by decide, by decide⟩
    · exact depunct_lower_chars s c
        (tokenize_chars_sub _ t (List.mem_of_mem_filter ht) c hct)
  have h1 : preprocess s = joinTokens T := preprocess_eq_joinTokens s
  rw [h1]
  have hlow : to_lowercase (joinTokens T) = joinTokens T :=
    map_id_of_mem _ _ (fun c hc => (hchars c hc).1)
  have hpunct : remove_punctuation (joinTokens T) = joinTokens T := by
    rw [remove_punctuation]
    apply map_id_of_mem
    intro c hc
    rw [if_pos ((hchars c hc).2)]
  have htok : tokenize (joinTokens T) = T := tokenize_joinTokens T hTgood
  have hfilt : T.filter (fun t => !(stop_words.contains (String.mk t))) = T := by
    rw [hT, List.filter_filter]
    simp
  rw [preprocess, remove_stop_words, hlow, hpunct, htok, hfilt]
  exact trimEnds_joinTokens T hTgood

/-- Claim C5 counterexample: token sequences with an unmatched `)` do
not fail.  `["a", ")"]` parses: the parser stops before the `)`,
prints only a warning, and returns the tree for `a`.  A lone `)` in
factor position is consumed as an ordinary term.  By contrast an input
that ends inside an unclosed `(` does fail. -/
theorem c5_counterexample :
    expand_query_tokens [] ["a", ")"] = .ok (qTerm "a") ∧
    expand_query_tokens [] [")"] = .ok (qTerm ")") ∧
    expand_query_tokens [] ["("] = .error ParseError.unexpectedEnd := by
  refine ⟨?_, ?_, ?_⟩
  · simp [expand_query_tokens, parse_expression, parse_term, parse_factor,
      parse_term_loop, parse_expression_loop, create_synonym_node, setInsertStr, qTerm]
  · simp [expand_query_tokens, parse_expression, parse_term, parse_factor,
      parse_term_loop, parse_expression_loop, create_synonym_node, setInsertStr, qTerm]
  · simp [expand_query_tokens, parse_expression, parse_term, parse_factor,
      parse_term_loop, parse_expression_loop, create_synonym_node, setInsertStr, qTerm]

theorem restProps_nil_of_mem {ts rest : List String}
    (hsub : ∀ x ∈ rest, x ∈ ts) (hin : ")" ∉ ts → "(" ∈ ts → "(" ∈ rest) :
    ParseRestProps ts rest :=
  ⟨hsub, hin⟩

theorem restProps_step {ts ts₁ r₁ r : List String}
    (h1 : ParseRestProps ts₁ r₁) (h2 : ParseRestProps r₁ r)
    (hsub : ∀ x ∈ ts₁, x ∈ ts)
    (hin : ")" ∉ ts → "(" ∈ ts → "(" ∈ ts₁) :
    ParseRestProps ts r := by
  constructor
  · intro x hx
    exact hsub _ (h1.1 _ (h2.1 _ hx))
  · intro hnp hp
    have hnp₁ : ")" ∉ ts₁ := fun hmem => hnp (hsub _ hmem)
    have h₁ : "(" ∈ r₁ := h1.2 hnp₁ (hin hnp hp)
    exact h2.2 (fun hm => hnp₁ (h1.1 _ hm)) h₁

theorem parser_paren_props : ∀ (n : Nat) (ts : List String), ts.length ≤ n →
    (∀ (syn : SynonymMap) res, parse_factor syn ts = .ok res →
      ParseRestProps ts res.val.2) ∧
    (∀ (syn : SynonymMap) (left : QueryNode) res, parse_term_loop syn left ts = .ok res →
      ParseRestProps ts res.val.2 ∧ StopsAtTermBoundary res.val.2) ∧
    (∀ (syn : SynonymMap) res, parse_term syn ts = .ok res →
      ParseRestProps ts res.val.2 ∧ StopsAtTermBoundary res.val.2) ∧
    (∀ (syn : SynonymMap) (left : QueryNode) res, parse_expression_loop syn left ts = .ok res →
      ParseRestProps ts res.val.2 ∧ (StopsAtTermBoundary ts → StopsAtParen res.val.2)) ∧
    (∀ (syn : SynonymMap) res, parse_expression syn ts = .ok res →
      ParseRestProps ts res.val.2 ∧ StopsAtParen res.val.2) := by
  intro n
  induction n with
  | zero =>
    intro ts hts
    have hnil : ts = [] := List.eq_nil_of_length_eq_zero (Nat.le_zero.1 hts)
    subst hnil
    refine ⟨?_, ?_, ?_, ?_, ?_⟩
    · intro syn res hok
      rw [parse_factor] at hok
      simp at hok
    · intro syn left res hok
      rw [parse_term_loop] at hok
      simp only [Except.ok.injEq] at hok
      subst hok
      exact ⟨⟨by simp, by simp⟩, Or.inl rfl⟩
    · intro syn res hok
      rw [parse_term, parse_factor] at hok
      simp at hok
    · intro syn left res hok
      rw [parse_expression_loop] at hok
      simp only [Except.ok.injEq] at hok
      subst hok
      exact ⟨⟨by simp, by simp⟩, fun _ => Or.inl rfl⟩
    · intro syn res hok
      rw [parse_expression, parse_term, parse_factor] at hok
      simp at hok
  | succ n ih =>
    intro ts hts
    have IH : ∀ ts' : List String, ts'.length < ts.length →
        ((∀ (syn : SynonymMap) res, parse_factor syn ts' = .ok res →
          ParseRestProps ts' res.val.2) ∧
        (∀ (syn : SynonymMap) (left : QueryNode) res,
          parse_term_loop syn left ts' = .ok res →
          ParseRestProps ts' res.val.2 ∧ StopsAtTermBoundary res.val.2) ∧
        (∀ (syn : SynonymMap) res, parse_term syn ts' = .ok res →
          ParseRestProps ts' res.val.2 ∧ StopsAtTermBoundary res.val.2) ∧
        (∀ (syn : SynonymMap) (left : QueryNode) res,
          parse_expression_loop syn left ts' = .ok res →
          ParseRestProps ts' res.val.2 ∧ (StopsAtTermBoundary ts' → StopsAtParen res.val.2)) ∧
        (∀ (syn : SynonymMap) res, parse_expression syn ts' = .ok res →
          ParseRestProps ts' res.val.2 ∧ StopsAtParen res.val.2)) :=
      fun ts' h => ih ts' (by omega)
    have hFactor : ∀ (syn : SynonymMap) res, parse_factor syn ts = .ok res →
        ParseRestProps ts res.val.2 := by
      intro syn res hok
      rcases ts with _ | ⟨tok, rest⟩
      · rw [parse_factor] at hok
        simp at hok
      · rw [parse_factor] at hok
        by_cases hnot : tok = "not"
        · rw [if_pos hnot] at hok
          rcases hrec : parse_factor syn rest with e | ⟨⟨child, r⟩, hlt⟩
          · rw [hrec] at hok
            simp at hok
          · rw [hrec] at hok
            simp only [Except.ok.injEq] at hok
            subst hok
            have hP := (IH rest (by simp)).1 syn ⟨(child, r), hlt⟩ hrec
            refine ⟨fun x hx => List.mem_cons_of_mem _ (hP.1 x hx), ?_⟩
            intro hnp hp
            have hp' : "(" ∈ rest := by
              rcases List.mem_cons.1 hp with heq | hm
              · rw [← heq] at hnot
                exact absurd (by rw [hnot]) (by simp : ¬("(" : String) = "not")
              · exact hm
            exact hP.2 (fun hm => hnp (List.mem_cons_of_mem _ hm)) hp'
        · by_cases hpar : tok = "("
          · rw [if_neg hnot, if_pos hpar] at hok
            rcases hrec : parse_expression syn rest with e | ⟨⟨node, r₁⟩, hlt⟩
            · rw [hrec] at hok
              simp at hok
            · rw [hrec] at hok
              rcases r₁ with _ | ⟨c, r'⟩
              · simp at hok
              · dsimp only at hok
                by_cases hc : c = ")"
                · rw [if_pos hc] at hok
                  simp only [Except.ok.injEq] at hok
                  subst hok
                  have hP := (IH rest (by simp)).2.2.2.2 syn ⟨(node, c :: r'), hlt⟩ hrec
                  refine ⟨?_, ?_⟩
                  · intro x hx
                    exact List.mem_cons_of_mem _
                      (hP.1.1 x (List.mem_cons_of_mem _ hx))
                  · intro hnp _
                    exfalso
                    apply hnp
                    apply List.mem_cons_of_mem
                    apply hP.1.1
                    rw [← hc]
                    exact List.mem_cons_self _ _
                · rw [if_neg hc] at hok
                  simp at hok
          · rw [if_neg hnot, if_neg hpar] at hok
            simp only [Except.ok.injEq] at hok
            subst hok
            refine ⟨fun x hx => List.mem_cons_of_mem _ hx, ?_⟩
            intro _ hp
            rcases List.mem_cons.1 hp with heq | hm
            · exact absurd heq.symm hpar
            · exact hm
    have hTermLoop : ∀ (syn : SynonymMap) (left : QueryNode) res,
        parse_term_loop syn left ts = .ok res →
        ParseRestProps ts res.val.2 ∧ StopsAtTermBoundary res.val.2 := by
      intro syn left res hok
      rcases ts with _ | ⟨tok, rest⟩
      · rw [parse_term_loop] at hok
        simp only [Except.ok.injEq] at hok
        subst hok
        exact ⟨⟨by simp, by simp⟩, Or.inl rfl⟩
      · rw [parse_term_loop] at hok
        by_cases hstop : tok = "or" ∨ tok = ")"
        · rw [if_pos hstop] at hok
          simp only [Except.ok.injEq] at hok
          subst hok
          refine ⟨⟨fun x hx => hx, fun _ hp => hp⟩, ?_⟩
          rcases hstop with h | h <;> subst h
          · exact Or.inr (Or.inl rfl)
          · exact Or.inr (Or.inr rfl)
        · rw [if_neg hstop] at hok
          by_cases hand : tok = "and"
          · rw [if_pos hand] at hok
            rcases hrec : parse_factor syn rest with e | ⟨⟨right, r⟩, hlt⟩
            · rw [hrec] at hok
              simp at hok
            · rw [hrec] at hok
              dsimp only at hok
              rcases hrec2 : parse_term_loop syn (.mk .AND "" [left, right]) r
                  with e | ⟨⟨node2, r2⟩, hle⟩
              · rw [hrec2] at hok
                simp at hok
              · rw [hrec2] at hok
                simp only [Except.ok.injEq] at hok
                subst hok
                have hP1 := (IH rest (by simp)).1 syn ⟨(right, r), hlt⟩ hrec
                have hlen := hlt
                simp only [List.length_cons] at hlen
                have hP2 := (IH r (by simp only [List.length_cons]; omega)).2.1 syn
                  (.mk .AND "" [left, right]) ⟨(node2, r2), hle⟩ hrec2
                refine ⟨restProps_step hP1 hP2.1
                  (fun x hx => List.mem_cons_of_mem _ hx) ?_, hP2.2⟩
                intro hnp hp
                rcases List.mem_cons.1 hp with heq | hm
                · rw [← heq] at hand
                  exact absurd (by rw [hand]) (by simp : ¬("(" : String) = "and")
                · exact hm
          · rw [if_neg hand] at hok
            rcases hrec : parse_factor syn (tok :: rest) with e | ⟨⟨right, r⟩, hlt⟩
            · rw [hrec] at hok
              simp at hok
            · rw [hrec] at hok
              dsimp only at hok
              rcases hrec2 : parse_term_loop syn (.mk .AND "" [left, right]) r
                  with e | ⟨⟨node2, r2⟩, hle⟩
              · rw [hrec2] at hok
                simp at hok
              · rw [hrec2] at hok
                simp only [Except.ok.injEq] at hok
                subst hok
                have hP1 := hFactor syn ⟨(right, r), hlt⟩ hrec
                have hP2 := (IH r (by simpa using hlt)).2.1 syn
                  (.mk .AND "" [left, right]) ⟨(node2, r2), hle⟩ hrec2
                exact ⟨restProps_step hP1 hP2.1 (fun x hx => hx) (fun _ hp => hp),
                  hP2.2⟩
    have hTerm : ∀ (syn : SynonymMap) res, parse_term syn ts = .ok res →
        ParseRestProps ts res.val.2 ∧ StopsAtTermBoundary res.val.2 := by
      intro syn res hok
      rw [parse_term] at hok
      rcases hrec : parse_factor syn ts with e | ⟨⟨left, r⟩, hlt⟩
      · rw [hrec] at hok
        simp at hok
      · rw [hrec] at hok
        dsimp only at hok
        rcases hrec2 : parse_term_loop syn left r with e | ⟨p2, hle⟩
        · rw [hrec2] at hok
          simp at hok
        · rw [hrec2] at hok
          simp only [Except.ok.injEq] at hok
          subst hok
          have hP1 := hFactor syn ⟨(left, r), hlt⟩ hrec
          have hP2 := (IH r (by simpa using hlt)).2.1 syn left ⟨p2, hle⟩ hrec2
          exact ⟨restProps_step hP1 hP2.1 (fun x hx => hx) (fun _ hp => hp), hP2.2⟩
    have hExprLoop : ∀ (syn : SynonymMap) (left : QueryNode) res,
        parse_expression_loop syn left ts = .ok res →
        ParseRestProps ts res.val.2 ∧ (StopsAtTermBoundary ts → StopsAtParen res.val.2) := by
      intro syn left res hok
      rcases ts with _ | ⟨tok, rest⟩
      · rw [parse_expression_loop] at hok
        simp only [Except.ok.injEq] at hok
        subst hok
        exact ⟨⟨by simp, by simp⟩, fun _ => Or.inl rfl⟩
      · rw [parse_expression_loop] at hok
        by_cases hor : tok = "or"
        · rw [if_pos hor] at hok
          rcases hrec : parse_term syn rest with e | ⟨⟨right, r⟩, hlt⟩
          · rw [hrec] at hok
            simp at hok
          · rw [hrec] at hok
            dsimp only at hok
            rcases hrec2 : parse_expression_loop syn (.mk .OR "" [left, right]) r
                with e | ⟨⟨node2, r2⟩, hle⟩
            · rw [hrec2] at hok
              simp at hok
            · rw [hrec2] at hok
              simp only [Except.ok.injEq] at hok
              subst hok
              have hP1 := (IH rest (by simp)).2.2.1 syn ⟨(right, r), hlt⟩ hrec
              have hlen := hlt
              simp only [List.length_cons] at hlen
              have hP2 := (IH r (by simp only [List.length_cons]; omega)).2.2.2.1 syn
                (.mk .OR "" [left, right]) ⟨(node2, r2), hle⟩ hrec2
              refine ⟨restProps_step hP1.1 hP2.1
                (fun x hx => List.mem_cons_of_mem _ hx) ?_, fun _ => hP2.2 hP1.2⟩
              intro hnp hp
              rcases List.mem_cons.1 hp with heq | hm
              · rw [← heq] at hor
                exact absurd (by rw [hor]) (by simp : ¬("(" : String) = "or")
              · exact hm
        · rw [if_neg hor] at hok
          simp only [Except.ok.injEq] at hok
          subst hok
          refine ⟨⟨fun x hx => hx, fun _ hp => hp⟩, ?_⟩
          intro hstop
          rcases hstop with h | h | h
          · simp at h
          · simp only [List.head?_cons, Option.some.injEq] at h
            exact absurd h hor
          · simp only [List.head?_cons, Option.some.injEq] at h
            subst h
            exact Or.inr rfl
    have hExpr : ∀ (syn : SynonymMap) res, parse_expression syn ts = .ok res →
        ParseRestProps ts res.val.2 ∧ StopsAtParen res.val.2 := by
      intro syn res hok
      rw [parse_expression] at hok
      rcases hrec : parse_term syn ts with e | ⟨⟨left, r⟩, hlt⟩
      · rw [hrec] at hok
        simp at hok
      · rw [hrec] at hok
        dsimp only at hok
        rcases hrec2 : parse_expression_loop syn left r with e | ⟨p2, hle⟩
        · rw [hrec2] at hok
          simp at hok
        · rw [hrec2] at hok
          simp only [Except.ok.injEq] at hok
          subst hok
          have hP1 := hTerm syn ⟨(left, r), hlt⟩ hrec
          have hP2 := (IH r (by simpa using hlt)).2.2.2.1 syn left ⟨p2, hle⟩ hrec2
          exact ⟨restProps_step hP1.1 hP2.1 (fun x hx => hx) (fun _ hp => hp),
            hP2.2 hP1.2⟩
    exact ⟨hFactor, hTermLoop, hTerm, hExprLoop, hExpr⟩

/-- Claim C5 (amended): an unmatched `)` never makes parsing fail —
the parser treats a `)` in factor position as an ordinary term, and
otherwise stops before the `)` and returns the tree parsed so far with
only a warning (see the counterexample theorem).  Parsing does fail
with a MalformedQuery-style error whenever the tokens contain a `(`
but no `)` at all, i.e. whenever an opened `(` group can never be
closed: this covers every input that ends inside an unclosed `(`
unless the parser has already stopped earlier at an unmatched `)`. -/
theorem c5_unclosed_paren_fails (syn : SynonymMap) (ts : List String)
    (hp : "(" ∈ ts) (hnp : ")" ∉ ts) :
    ∃ e, expand_query_tokens syn ts = .error e := by
  rw [expand_query_tokens]
  have hne : ts ≠ [] := by
    intro h
    rw [h] at hp
    simp at hp
  rw [if_neg (by simpa using hne)]
  rcases hrec : parse_expression syn ts with e | ⟨⟨tree, r⟩, hlt⟩
  · exact ⟨e, rfl⟩
  · exfalso
    have hP := (parser_paren_props ts.length ts (Nat.le_refl _)).2.2.2.2 syn
      ⟨(tree, r), hlt⟩ hrec
    rcases hP.2 with hr | hr
    · have hmem : "(" ∈ ((⟨(tree, r), hlt⟩ :
          {p : QueryNode × List String // p.2.length < ts.length}) : _).val.2 :=
        hP.1.2 hnp hp
      rw [hr] at hmem
      simp at hmem
    · rcases r with _ | ⟨c, r'⟩
      · simp at hr
      · simp only [List.head?_cons, Option.some.injEq] at hr
        subst hr
        exact hnp (hP.1.1 _ (List.mem_cons_self _ _))

/-- Witness for C5 (amended) at the token sequence `["("]`. -/
theorem c5_unclosed_paren_fails_witness :
    ("(" : String) ∈ ["("] ∧ (")" : String) ∉ ["("] ∧
    ∃ e, expand_query_tokens [] ["("] = .error e :=
  ⟨by decide, by decide, c5_unclosed_paren_fails [] ["("] (by decide) (by decide)⟩

end BoolIR
